import Mathlib

/-!
Verification development for the phone-forwarding library
(`string_utils.c`, `phone_numbers.c`, `node_utils.c`, `phone_forward.c`).

C strings are modelled as `List Char` (the characters before the
terminating NUL); reading past the end of the list yields the NUL
character, as in C.  Allocation is modelled by a budget `Mem`:
`none` means allocation never fails, `some k` means the next `k`
allocations succeed and the following one fails.
-/

namespace PhoneFwd

abbrev Str := List Char

def nullChar : Char := Char.ofNat 0

/-- `isValidDigit` from `string_utils.c`: digits `0`-`9`, `*` and `#`. -/
def isValidDigit (c : Char) : Bool := c.isDigit || c == '*' || c == '#'

/-- `toDecimalRepresentation` from `string_utils.c`: `'*' ↦ 10`, `'#' ↦ 11`,
a digit to its value (`c - '0'`). -/
def toDecimalRepresentation (c : Char) : Nat :=
  if c = '*' then 10 else if c = '#' then 11 else c.toNat - 48

/-- The check `s[i] == '\0'` performed by the C code after a scan stopped:
beyond the end of the list the C string holds the terminating NUL. -/
def cAtEnd : Str → Bool
  | [] => true
  | c :: _ => c == nullChar

/-- The scanning loop of `isNumber`: consume valid symbols, counting them. -/
def isNumLoop : Str → Nat → Str × Nat
  | [], i => ([], i)
  | c :: t, i => if isValidDigit c then isNumLoop t (i + 1) else (c :: t, i)

/-- `isNumber` from `string_utils.c`: the scan must consume at least one
symbol and must stop on the terminator. -/
def isNumber (s : Str) : Bool :=
  let r := isNumLoop s 0
  (r.2 != 0) && cAtEnd r.1

/-- `areEqual` from `string_utils.c`. -/
def areEqual : Str → Str → Bool
  | c1 :: t1, c2 :: t2 =>
    if isValidDigit c1 && isValidDigit c2 then
      if c1 == c2 then areEqual t1 t2 else false
    else cAtEnd (c1 :: t1) && cAtEnd (c2 :: t2)
  | r1, r2 => cAtEnd r1 && cAtEnd r2

/-- `length` from `string_utils.c`: number of leading valid symbols. -/
def lengthNum : Str → Nat
  | [] => 0
  | c :: t => if isValidDigit c then lengthNum t + 1 else 0

/-- Value produced by `copyNumber` from `string_utils.c`: the run of valid
symbols at the front of the input (the allocation itself is accounted for
by each caller). -/
def copyNumberVal (s : Str) : Str := s.takeWhile isValidDigit

/-- Value produced by `copyParts` from `string_utils.c`: the valid run of
the new front part followed by the valid run of `num` starting at index
`len` of the original front part. -/
def copyPartsVal (num : Str) (fwd : Str) (len : Nat) : Str :=
  fwd.takeWhile isValidDigit ++ (num.drop len).takeWhile isValidDigit

/-- First loop of `checkNumbers`: simultaneous scan of both strings while
both symbols are valid, tracking the count and whether all symbols agreed. -/
def chkLoop1 : Str → Str → Nat → Bool → Str × Str × Nat × Bool
  | c1 :: t1, c2 :: t2, i, eq =>
    if isValidDigit c1 && isValidDigit c2 then
      chkLoop1 t1 t2 (i + 1) (eq && (c1 == c2))
    else (c1 :: t1, c2 :: t2, i, eq)
  | r1, r2, i, eq => (r1, r2, i, eq)

/-- Tail loops of `checkNumbers`: scan remaining valid symbols of one
string; any step clears the equality flag. -/
def chkTail : Str → Bool → Str × Bool
  | c :: t, eq => if isValidDigit c then chkTail t false else (c :: t, eq)
  | [], eq => ([], eq)

/-- `checkNumbers` from `string_utils.c` (the NULL-pointer case is outside
the model: a `Str` always denotes a present string). -/
def checkNumbers (num1 num2 : Str) : Bool :=
  let r := chkLoop1 num1 num2 0 true
  if r.2.2.1 == 0 then false
  else
    let s1 := chkTail r.1 r.2.2.2
    if !cAtEnd s1.1 then false
    else
      let s2 := chkTail r.2.1 s1.2
      if !cAtEnd s2.1 then false
      else if s2.2 then false else true

/-- The digit path a string denotes in a trie: encoded values of its
leading valid symbols. -/
def digitsOf (s : Str) : List Nat :=
  (s.takeWhile isValidDigit).map toDecimalRepresentation

/-! ### Allocation model -/

/-- Allocation budget: `none` = allocation never fails, `some k` = the next
`k` allocations succeed, the `k+1`-st fails. -/
abbrev Mem := Option Nat

/-- One `malloc`/`realloc` call: returns the remaining budget, or `none`
when the allocation fails. -/
def allocTake : Mem → Option Mem
  | none => some none
  | some 0 => none
  | some (k + 1) => some (some k)

/-! ### `PhoneNumbers` (phone_numbers.c) -/

/-- `struct PhoneNumbers`: the array of numbers together with the tracked
capacity (`size` is the length of `array`). -/
structure PhoneNumbersS where
  array : List Str
  capacity : Nat
deriving DecidableEq, Repr

/-- The value made by `phnumNew` (its own allocation is accounted for by
each caller): no numbers, capacity 1. -/
def phnumNewVal : PhoneNumbersS := ⟨[], 1⟩

/-- `phnumAdd` from `phone_numbers.c`: bump the size; when it reaches the
capacity, double the capacity and reallocate (on reallocation failure the
size is restored but the capacity stays doubled). -/
def phnumAddM (pn : PhoneNumbersS) (s : Str) (m : Mem) : Bool × PhoneNumbersS × Mem :=
  if pn.array.length + 1 == pn.capacity then
    match allocTake m with
    | none => (false, { pn with capacity := pn.capacity * 2 }, m)
    | some m1 => (true, { array := pn.array ++ [s], capacity := pn.capacity * 2 }, m1)
  else (true, { pn with array := pn.array ++ [s] }, m)

/-- The removal scan of `phnumRemove`: drop the first element equal
(under `areEqual`) to `num`, keep everything else. -/
def removeFirstEq : List Str → Str → List Str
  | [], _ => []
  | a :: t, num => if areEqual a num then t else a :: removeFirstEq t num

/-- `phnumRemove` from `phone_numbers.c`: remove the first matching
element; if the vector becomes (or was) empty it is deleted (`none`). -/
def phnumRemoveM : Option PhoneNumbersS → Str → Option PhoneNumbersS
  | none, _ => none
  | some pn, num =>
    let arr := removeFirstEq pn.array num
    if arr.length == 0 then none else some { pn with array := arr }

/-! ### Trie nodes (node_utils.c / phone_forward.c) -/

/-- `struct Node`: an optional owned payload vector and 12 child slots.
The parent back-pointer is navigational only and is not part of the
functional state. -/
inductive DNode : Type where
  | mk : Option PhoneNumbersS → List (Option DNode) → DNode

/-- Payload vector of a node (`node->numbers`). -/
def DNode.numbers : DNode → Option PhoneNumbersS
  | .mk n _ => n

/-- Child array of a node (`node->next`). -/
def DNode.next : DNode → List (Option DNode)
  | .mk _ c => c

/-- The value made by `nodeNew`: no payload, 12 empty child slots. -/
def emptyNode : DNode := .mk none (List.replicate 12 none)

/-- `node->next[d]`. -/
def getChild (t : DNode) (d : Nat) : Option DNode := t.next.getD d none

/-- `node->next[d] = c`. -/
def setChild (t : DNode) (d : Nat) (c : Option DNode) : DNode :=
  .mk t.numbers (t.next.set d c)

/-- Replace the payload vector of a node. -/
def setNumbers (t : DNode) (pn : Option PhoneNumbersS) : DNode := .mk pn t.next

/-- `numberOfChildren` from `node_utils.c`: non-NULL child slots. -/
def numChildren (t : DNode) : Nat := t.next.countP Option.isSome

/-- Follow a digit path down from a node. -/
def nodeAt : DNode → List Nat → Option DNode
  | t, [] => some t
  | t, d :: p =>
    match getChild t d with
    | none => none
    | some c => nodeAt c p

/-- Rewrite the node at the end of an existing digit path (identity when
the path does not exist). -/
def updateAt : DNode → List Nat → (DNode → DNode) → DNode
  | t, [], f => f t
  | t, d :: p, f =>
    match getChild t d with
    | none => t
    | some c => setChild t d (some (updateAt c p f))

/-- Sever the child slot `d` of the node at path `p`
(`node->next[d] = NULL` followed by `deleteIterative` of the subtree,
whose only functional effect is that the subtree is gone). -/
def detachAt (t : DNode) (p : List Nat) (d : Nat) : DNode :=
  updateAt t p (fun n => setChild n d none)

/-- The payload vector found at a digit path (the forward/reverse map the
two tries encode). -/
def pathMap (t : DNode) (p : List Nat) : Option PhoneNumbersS :=
  (nodeAt t p).bind DNode.numbers

/-- First number stored at a digit path (`node->numbers->array[0]` when
the vector exists and is non-empty). -/
def firstMap (t : DNode) (p : List Nat) : Option Str :=
  (pathMap t p).bind (fun pn => pn.array.head?)

/-! ### `getEndNode` (node_utils.c: 191-224, phone_forward.c: 345-378) -/

/-- The node-creating phase of `getEndNode`: the walk found a missing
child, and every remaining symbol requires one `nodeNew` allocation.  On
an allocation failure partway, the nodes already created remain attached
(this is the partial state the undo record later severs); the result is
`(chain-so-far, budget, success)`, with `none` when not even the first
node could be created. -/
def buildChain : Str → Mem → Option DNode × Mem × Bool
  | s, m =>
    match allocTake m with
    | none => (none, m, false)
    | some m1 =>
      match s with
      | [] => (some emptyNode, m1, true)
      | c :: rest =>
        if isValidDigit c then
          let r := buildChain rest m1
          (some (setChild emptyNode (toDecimalRepresentation c) r.1), r.2.1, r.2.2)
        else (some emptyNode, m1, true)

/-- The walk of `getEndNode` before rollback: returns the trie with all
nodes created so far (also in the failure case), the budget, the success
flag and the undo record — the path of `beforeFirstAdded` together with
`firstAddedDigit` (`none` when no node was created). -/
def genRaw : DNode → Str → Mem → DNode × Mem × Bool × Option (List Nat × Nat)
  | t, [], m => (t, m, true, none)
  | t, c :: rest, m =>
    if isValidDigit c then
      let d := toDecimalRepresentation c
      match getChild t d with
      | some child =>
        let r := genRaw child rest m
        (setChild t d (some r.1), r.2.1, r.2.2.1,
          r.2.2.2.map (fun pr => (d :: pr.1, pr.2)))
      | none =>
        let r := buildChain rest m
        match r.1 with
        | none => (t, r.2.1, false, none)
        | some nd => (setChild t d (some nd), r.2.1, r.2.2, some ([], d))
    else (t, m, true, none)

/-- The undo record applied: `beforeFirstAdded->next[firstAddedDigit] =
NULL; deleteIterative(firstAdded)` (a no-op when nothing was created). -/
def rollbackDetach (t : DNode) : Option (List Nat × Nat) → DNode
  | none => t
  | some pr => detachAt t pr.1 pr.2

/-- `getEndNode`: walk the number, creating missing nodes; on an
allocation failure the undo record is used to delete every node this call
created before returning failure. -/
def getEndNodeM (t : DNode) (num : Str) (m : Mem) :
    DNode × Mem × Bool × Option (List Nat × Nat) :=
  let r := genRaw t num m
  if r.2.2.1 then r else (rollbackDetach r.1 r.2.2.2, r.2.1, false, r.2.2.2)

/-! ### Payload mutation at a node (`overWriteForwarding`, `addReverse`) -/

/-- `overWriteForwarding` (node_utils.c: 236-279, phone_forward.c:
449-492), acting on the node at the path of `num1` inside `root`, with
`info` the undo record of the preceding `getEndNode` call.  Returns the
new trie, the budget, the copied-out overwritten number (if any) and the
success flag.  On failure the undo record is applied — but a pre-existing
node keeps whatever partial payload state the steps so far produced. -/
def overWriteForwardingM (root : DNode) (num1 : Str) (info : Option (List Nat × Nat))
    (num : Str) (m : Mem) : DNode × Mem × Option Str × Bool :=
  match allocTake m with
  | none => (rollbackDetach root info, m, none, false)
  | some m1 =>
    let p := digitsOf num1
    match nodeAt root p with
    | none => (rollbackDetach root info, m1, none, false)
    | some node =>
      let owStep : Option (Option Str × Mem) :=
        match node.numbers with
        | some pn =>
          if pn.array.length > 0 then
            match allocTake m1 with
            | none => none
            | some m2 => some (some (copyNumberVal (pn.array.headD [])), m2)
          else some (none, m1)
        | none => some (none, m1)
      match owStep with
      | none => (rollbackDetach root info, m1, none, false)
      | some (ow, m2) =>
        match allocTake m2 with
        | none =>
          let root1 := updateAt root p (fun n => setNumbers n none)
          (rollbackDetach root1 info, m2, none, false)
        | some m3 =>
          let r := phnumAddM phnumNewVal (copyNumberVal num) m3
          let root1 := updateAt root p (fun n => setNumbers n (some r.2.1))
          if r.1 then (root1, r.2.2, ow, true)
          else (rollbackDetach root1 info, r.2.2, none, false)

/-- `addReverse` (node_utils.c: 281-320, phone_forward.c: 507-546),
acting on the node at the path of `num2` inside `root`, with `info` the
undo record of the preceding `getEndNode` call on the reverse trie. -/
def addReverseM (root : DNode) (num2 : Str) (info : Option (List Nat × Nat))
    (num : Str) (m : Mem) : DNode × Mem × Bool :=
  match allocTake m with
  | none => (rollbackDetach root info, m, false)
  | some m1 =>
    let p := digitsOf num2
    match nodeAt root p with
    | none => (rollbackDetach root info, m1, false)
    | some node =>
      match node.numbers with
      | none =>
        match allocTake m1 with
        | none => (rollbackDetach root info, m1, false)
        | some m2 =>
          let r := phnumAddM phnumNewVal (copyNumberVal num) m2
          let root1 := updateAt root p (fun n => setNumbers n (some r.2.1))
          if r.1 then (root1, r.2.2, true) else (rollbackDetach root1 info, r.2.2, false)
      | some pn0 =>
        let r := phnumAddM pn0 (copyNumberVal num) m1
        let root1 := updateAt root p (fun n => setNumbers n (some r.2.1))
        if r.1 then (root1, r.2.2, true) else (rollbackDetach root1 info, r.2.2, false)

/-! ### `removeReverse` (node_utils.c: 322-351, phone_forward.c: 587-616) -/

/-- The walk of `removeReverse` (also of `removeReverseWithPrefix`):
follow the route of `num1`, tracking `beforePointToRemove` (as a path)
and `pointToRemoveDigit` — updated whenever the current node has a
payload, more than one child, or no candidate was recorded yet.  Returns
`none` when the route breaks off, else the end path and the cut. -/
def rrFind (t : DNode) (s : Str) (pos : List Nat) (cut : List Nat × Nat) (last : Bool) :
    Option (List Nat × (List Nat × Nat)) :=
  match s with
  | [] => some (pos, cut)
  | c :: rest =>
    if isValidDigit c then
      let d := toDecimalRepresentation c
      match getChild t d with
      | none => none
      | some child =>
        if t.numbers.isSome || decide (1 < numChildren t) || !last then
          rrFind child rest (pos ++ [d]) (pos, d) true
        else
          rrFind child rest (pos ++ [d]) cut last
    else some (pos, cut)

/-- `removeReverse`: walk to the node of `num1`, remove `num2` from its
payload vector; if the vector disappeared, sever at the recorded cut
point and delete that whole subtree.  (Note: unlike
`removeReverseWithPrefix`, the code does not require the node to be
childless before severing.) -/
def removeReverseM (start : DNode) (num1 num2 : Str) : DNode :=
  match rrFind start num1 [] ([], 0) false with
  | none => start
  | some (endPos, cut) =>
    let newNums := phnumRemoveM ((nodeAt start endPos).bind DNode.numbers) num2
    let t1 := updateAt start endPos (fun n => setNumbers n newNums)
    if newNums.isNone then detachAt t1 cut.1 cut.2 else t1

/-! ### The forwarding table and `phfwdAdd` / `phfwdRemove` -/

/-- `struct PhoneForward`: the two trie roots. -/
structure PhoneForward where
  root : DNode
  reverseRoot : DNode

/-- The table made by `phfwdNew` (its allocations aside): two empty
roots. -/
def phfwdNewVal : PhoneForward := ⟨emptyNode, emptyNode⟩

/-- `phfwdAdd` from `phone_forward.c` (638-679): validate, walk/create
the forward path, overwrite the forwarding, un-mirror an overwritten
target via `removeReverse`, walk/create the reverse path, append the
mirror entry; on a failure in the reverse phase the forward undo record
is applied. -/
def phfwdAddM (pf : PhoneForward) (num1 num2 : Str) (m : Mem) :
    Bool × PhoneForward × Mem :=
  if !checkNumbers num1 num2 then (false, pf, m)
  else
    let g1 := getEndNodeM pf.root num1 m
    if !g1.2.2.1 then (false, { pf with root := g1.1 }, g1.2.1)
    else
      let ow := overWriteForwardingM g1.1 num1 g1.2.2.2 num2 g1.2.1
      if !ow.2.2.2 then (false, { pf with root := ow.1 }, ow.2.1)
      else
        let rev1 :=
          match ow.2.2.1 with
          | some w => removeReverseM pf.reverseRoot w num1
          | none => pf.reverseRoot
        let g2 := getEndNodeM rev1 num2 ow.2.1
        if !g2.2.2.1 then
          (false, ⟨rollbackDetach ow.1 g1.2.2.2, g2.1⟩, g2.2.1)
        else
          let ar := addReverseM g2.1 num2 g2.2.2.2 num1 g2.2.1
          if !ar.2.2 then
            (false, ⟨rollbackDetach ow.1 g1.2.2.2, ar.1⟩, ar.2.1)
          else (true, ⟨ow.1, ar.1⟩, ar.2.1)

/-- The walk of `phfwdRemove` (phone_forward.c: 681-709): follow the
number down the forward trie tracking the prunable cut point, with the
same condition as `rrFind`. -/
def remFindCut (t : DNode) (s : Str) (pos : List Nat) (cut : List Nat × Nat) (last : Bool) :
    Option (List Nat × Nat) :=
  match s with
  | [] => some cut
  | c :: rest =>
    if isValidDigit c then
      let d := toDecimalRepresentation c
      match getChild t d with
      | none => none
      | some child =>
        if t.numbers.isSome || decide (1 < numChildren t) || !last then
          remFindCut child rest (pos ++ [d]) (pos, d) true
        else
          remFindCut child rest (pos ++ [d]) cut last
    else some cut

/-- `phfwdRemove` from `phone_forward.c` (681-709): silently do nothing
on an invalid number or a missing route; otherwise sever at the recorded
cut point and delete the subtree. -/
def phfwdRemoveM (pf : PhoneForward) (num : Str) : PhoneForward :=
  if !isNumber num then pf
  else
    match remFindCut pf.root num [] ([], 0) false with
    | none => pf
    | some cut => { pf with root := detachAt pf.root cut.1 cut.2 }

/-! ### `findPrefix` and `phfwdGet` (phone_forward.c: 757-816) -/

/-- The walk of `findPrefix`: descend while children exist, remembering
the payload and depth of the deepest payload-carrying node passed. -/
def fpGo : DNode → Str → Nat → Option (Str × Nat) → Option (Str × Nat)
  | _, [], _, acc => acc
  | t, c :: rest, i, acc =>
    if isValidDigit c then
      match getChild t (toDecimalRepresentation c) with
      | none => acc
      | some child =>
        fpGo child rest (i + 1)
          (match child.numbers with
            | some pn => if 0 < pn.array.length then some (pn.array.headD [], i + 1) else acc
            | none => acc)
    else acc

/-- `findPrefix` from `phone_forward.c` (757-777): the target of the
longest forwarded prefix of `num`, with the prefix's length. -/
def findPrefixM (t : DNode) (num : Str) : Option (Str × Nat) := fpGo t num 0 none

/-- `phfwdGet` from `phone_forward.c` (779-816): allocate the result
vector, return it empty for an invalid number, else build the forwarded
number from the longest forwarded prefix (or copy `num` when there is
none). -/
def phfwdGetM (pf : PhoneForward) (num : Str) (m : Mem) : Option (List Str) × Mem :=
  match allocTake m with
  | none => (none, m)
  | some m1 =>
    if !isNumber num then (some [], m1)
    else
      match findPrefixM pf.root num with
      | none =>
        match allocTake m1 with
        | none => (none, m1)
        | some m2 =>
          let r := phnumAddM phnumNewVal (copyNumberVal num) m2
          if r.1 then (some r.2.1.array, r.2.2) else (none, r.2.2)
      | some fp =>
        match allocTake m1 with
        | none => (none, m1)
        | some m2 =>
          let r := phnumAddM phnumNewVal (copyPartsVal num fp.1 fp.2) m2
          if r.1 then (some r.2.1.array, r.2.2) else (none, r.2.2)

/-! ### Sorting and deduplication (phone_numbers.c: 161-202) -/

/-- End-of-loop comparison of `comparePhoneNumbers`: whichever string
still has a valid symbol is the greater one. -/
def cmpEnd (r1 r2 : Str) : Int :=
  if isValidDigit (r1.headD nullChar) then 1
  else if isValidDigit (r2.headD nullChar) then -1
  else 0

/-- `comparePhoneNumbers` from `phone_numbers.c` (161-185): symbol-wise
comparison by encoded value. -/
def comparePhoneNumbers : Str → Str → Int
  | c1 :: t1, c2 :: t2 =>
    if isValidDigit c1 && isValidDigit c2 then
      if toDecimalRepresentation c1 > toDecimalRepresentation c2 then 1
      else if toDecimalRepresentation c1 < toDecimalRepresentation c2 then -1
      else comparePhoneNumbers t1 t2
    else cmpEnd (c1 :: t1) (c2 :: t2)
  | [], r2 => cmpEnd [] r2
  | c1 :: t1, [] => cmpEnd (c1 :: t1) []

/-- Plain lexicographic comparison of digit sequences (used to reason
about `comparePhoneNumbers`). -/
def lexCmp : List Nat → List Nat → Int
  | [], [] => 0
  | [], _ :: _ => -1
  | _ :: _, [] => 1
  | x :: xs, y :: ys => if x > y then 1 else if x < y then -1 else lexCmp xs ys

/-- One insertion step of the sort. -/
def insertNum (a : Str) : List Str → List Str
  | [] => [a]
  | b :: t => if comparePhoneNumbers a b ≤ 0 then a :: b :: t else b :: insertNum a t

/-- `sortPhoneNumbers` from `phone_numbers.c` (188-190): `qsort` with the
comparator `comparePhoneNumbers`, modelled as a sort (insertion sort)
with respect to the same comparator. -/
def sortPhoneNumbersM : List Str → List Str
  | [] => []
  | a :: t => insertNum a (sortPhoneNumbersM t)

/-- The effect of the `removeDuplicates` loop, described structurally:
keep the first element of every run of `areEqual`-equal adjacent
elements. -/
def dedupGo (last : Str) : List Str → List Str
  | [] => []
  | b :: t => if areEqual last b then dedupGo last t else b :: dedupGo b t

/-- Adjacent deduplication: `dedupGo` seeded with the head. -/
def dedupAdj : List Str → List Str
  | [] => []
  | a :: t => a :: dedupGo a t

/-- `2^64`: the modulus of `size_t` arithmetic. -/
abbrev sizeTW : Nat := 18446744073709551616

/-- The loop of `removeDuplicates` from `phone_numbers.c` (192-202): the
bound `size - 1` is computed in `size_t` arithmetic (so it wraps around
for `size = 0`); the two array reads are modelled as checked accesses,
`none` meaning an out-of-bounds access.  `fuel` is an artifact of the
embedding: an upper bound on the remaining iterations (each iteration
either advances `i` or shrinks the vector), always supplied large enough
by `removeDuplicatesM`. -/
def removeDupLoopM (fuel : Nat) (l : List Str) (i : Nat) : Option (List Str) :=
  match fuel with
  | 0 => none
  | fuel + 1 =>
    if i < (l.length + sizeTW - 1) % sizeTW then
      match l.get? i, l.get? (i + 1) with
      | some a, some b =>
        if areEqual a b then removeDupLoopM fuel (l.eraseIdx (i + 1)) i
        else removeDupLoopM fuel l (i + 1)
      | _, _ => none
    else some l

/-- `removeDuplicates` from `phone_numbers.c`. -/
def removeDuplicatesM (l : List Str) : Option (List Str) :=
  removeDupLoopM (l.length + 1) l 0

/-! ### `addAllFromReverseTree` (node_utils.c: 374-403) -/

/-- `phnumAddAllCopiedParts` from `phone_numbers.c` (75-88): for every
stored source prefix build `copyParts(orig, src, plen)` and append it. -/
def phnumAddAllCopiedPartsM (src : List Str) (dst : PhoneNumbersS) (orig : Str) (plen : Nat)
    (m : Mem) : Bool × PhoneNumbersS × Mem :=
  match src with
  | [] => (true, dst, m)
  | s :: rest =>
    match allocTake m with
    | none => (false, dst, m)
    | some m1 =>
      let r := phnumAddM dst (copyPartsVal orig s plen) m1
      if r.1 then phnumAddAllCopiedPartsM rest r.2.1 orig plen r.2.2
      else (false, r.2.1, r.2.2)

/-- The walk of `addAllFromReverseTree`: descend the reverse trie along
`orig`, collecting rewritten candidates from every payload-carrying child
passed. -/
def addAllGo (t : DNode) (s : Str) (orig : Str) (i : Nat) (pn : PhoneNumbersS) (m : Mem) :
    Bool × PhoneNumbersS × Mem :=
  match s with
  | [] => (true, pn, m)
  | c :: rest =>
    if isValidDigit c then
      match getChild t (toDecimalRepresentation c) with
      | none => (true, pn, m)
      | some child =>
        match child.numbers with
        | some pnl =>
          let r := phnumAddAllCopiedPartsM pnl.array pn orig (i + 1) m
          if r.1 then addAllGo child rest orig (i + 1) r.2.1 r.2.2
          else (false, r.2.1, r.2.2)
        | none => addAllGo child rest orig (i + 1) pn m
    else (true, pn, m)

/-- `addAllFromReverseTree` from `node_utils.c` (374-403): collect all
rewritten candidates, then unconditionally append a copy of `num`
itself. -/
def addAllFromReverseTreeM (t : DNode) (num : Str) (pn : PhoneNumbersS) (m : Mem) :
    Bool × PhoneNumbersS × Mem :=
  let r := addAllGo t num num 0 pn m
  if !r.1 then (false, r.2.1, r.2.2)
  else
    match allocTake r.2.2 with
    | none => (false, r.2.1, r.2.2)
    | some m1 =>
      let r2 := phnumAddM r.2.1 (copyNumberVal num) m1
      (r2.1, r2.2.1, r2.2.2)

/-- Modelled from the spec: the final `phfwdReverse` is missing from
`src/` (the snapshot there still holds the dummy that returns `NULL`),
while its helpers `addAllFromReverseTree`, `sortPhoneNumbers` and
`removeDuplicates` are present.  Per §4.4 ReverseLookup and §6: allocate
the result vector, return it empty for an invalid number, else collect
the candidates for every prefix level (`addAllFromReverseTree`, which
also appends `num` itself), sort them and remove adjacent duplicates;
`null` only on allocation failure. -/
def phfwdReverseM (pf : PhoneForward) (num : Str) (m : Mem) : Option (List Str) × Mem :=
  match allocTake m with
  | none => (none, m)
  | some m1 =>
    if !isNumber num then (some [], m1)
    else
      let r := addAllFromReverseTreeM pf.reverseRoot num phnumNewVal m1
      if !r.1 then (none, r.2.2)
      else
        match removeDuplicatesM (sortPhoneNumbersM r.2.1.array) with
        | none => (none, r.2.2)
        | some out => (some out, r.2.2)

/-! ### Specification-side definitions -/

/-- Spec-side symbol order: symbols compare by encoded value
(`'*'` and `'#'`, encoded 10 and 11, sort after `'9'`). -/
def encLt (c d : Char) : Prop := toDecimalRepresentation c < toDecimalRepresentation d

/-- Spec-side order on numbers: strict symbol-wise lexicographic order by
encoded value, or equality. -/
def symbLe (a b : Str) : Prop := List.Lex encLt a b ∨ a = b

/-- All characters of a string are valid symbols. -/
abbrev validChars (s : Str) : Prop := ∀ c ∈ s, isValidDigit c = true

/-- The (non-strict) order induced by `comparePhoneNumbers`. -/
def cmpLe (a b : Str) : Prop := comparePhoneNumbers a b ≤ 0

/-- The strict order induced by `comparePhoneNumbers`. -/
def cmpLt (a b : Str) : Prop := comparePhoneNumbers a b < 0

/-- Spec-side longest-payload-prefix: the payload and depth of the
deepest prefix (of length at least 1) of `ds` on which `f` carries a
payload. -/
def bestPfxSpec (f : List Nat → Option Str) : List Nat → Option (Str × Nat)
  | [] => none
  | d :: ds =>
    match bestPfxSpec (fun p => f (d :: p)) ds with
    | some r => some (r.1, r.2 + 1)
    | none => (f [d]).map (fun T => (T, 1))

/-- A string with no embedded NUL character: the faithful image of a C
string. -/
abbrev nulFree (s : Str) : Prop := ∀ c ∈ s, c ≠ nullChar

/-- Spec-side notion of a valid number: non-empty, and consisting only of
the symbols `0`-`9`, `*`, `#`. -/
abbrev validNumber (s : Str) : Prop := s ≠ [] ∧ ∀ c ∈ s, isValidDigit c

/-- Length of the maximal initial run on which both strings still carry
valid symbols (the extent of the first `checkNumbers` loop). -/
def commonRun : Str → Str → Nat
  | c1 :: t1, c2 :: t2 =>
    if isValidDigit c1 && isValidDigit c2 then commonRun t1 t2 + 1 else 0
  | _, _ => 0

/-! ## Theorems -/

theorem valid_ne_null {c : Char} (h : isValidDigit c = true) : c ≠ nullChar := by
  intro hc
  subst hc
  exact absurd h (by decide)

theorem char_beq_decide (c1 c2 : Char) : (c1 == c2) = decide (c1 = c2) := by
  by_cases h : c1 = c2 <;> simp [h]

theorem cAtEnd_iff {s : Str} (h : nulFree s) : cAtEnd s = true ↔ s = [] := by
  cases s with
  | nil => simp [cAtEnd]
  | cons c t =>
    have hc : c ≠ nullChar := h c (List.mem_cons_self c t)
    simp [cAtEnd, hc]

theorem isNumLoop_spec : ∀ (s : Str) (i : Nat),
    isNumLoop s i = (s.dropWhile isValidDigit, i + (s.takeWhile isValidDigit).length)
  | [], i => by simp [isNumLoop]
  | c :: t, i => by
    by_cases h : isValidDigit c = true
    · simp [isNumLoop, h, isNumLoop_spec t (i + 1), List.dropWhile_cons, List.takeWhile_cons]
      omega
    · simp [isNumLoop, h, List.dropWhile_cons, List.takeWhile_cons]

theorem isNumber_iff {s : Str} (h : nulFree s) : isNumber s = true ↔ validNumber s := by
  have hsub : nulFree (s.dropWhile isValidDigit) :=
    fun c hc => h c ((List.dropWhile_sublist _).mem hc)
  unfold isNumber
  rw [isNumLoop_spec]
  simp only [Bool.and_eq_true, bne_iff_ne, ne_eq, Nat.zero_add]
  rw [cAtEnd_iff hsub, List.dropWhile_eq_nil_iff]
  constructor
  · rintro ⟨hlen, hall⟩
    have htake : s.takeWhile isValidDigit = s := List.takeWhile_eq_self_iff.mpr hall
    refine ⟨?_, hall⟩
    intro hnil
    rw [htake, hnil] at hlen
    exact hlen rfl
  · rintro ⟨hne, hall⟩
    have htake : s.takeWhile isValidDigit = s := List.takeWhile_eq_self_iff.mpr hall
    refine ⟨?_, hall⟩
    rw [htake]
    intro hlen
    exact hne (List.length_eq_zero.mp hlen)

theorem chkLoop1_spec : ∀ (n1 n2 : Str) (i : Nat) (e : Bool),
    chkLoop1 n1 n2 i e =
      (n1.drop (commonRun n1 n2), n2.drop (commonRun n1 n2), i + commonRun n1 n2,
        e && decide (n1.take (commonRun n1 n2) = n2.take (commonRun n1 n2)))
  | c1 :: t1, c2 :: t2, i, e => by
    by_cases h : (isValidDigit c1 && isValidDigit c2) = true
    · rw [chkLoop1, commonRun, if_pos h, if_pos h,
        chkLoop1_spec t1 t2 (i + 1) (e && (c1 == c2))]
      simp only [List.drop_succ_cons, List.take_succ_cons, Prod.mk.injEq, true_and]
      refine ⟨by omega, ?_⟩
      rw [Bool.and_assoc, char_beq_decide,
        show decide (c1 :: t1.take (commonRun t1 t2) = c2 :: t2.take (commonRun t1 t2)) =
          decide (c1 = c2 ∧ t1.take (commonRun t1 t2) = t2.take (commonRun t1 t2)) from
          decide_eq_decide.mpr List.cons_eq_cons, Bool.decide_and]
    · rw [chkLoop1, commonRun, if_neg h, if_neg h]
      simp
  | [], n2, i, e => by simp [chkLoop1, commonRun]
  | c1 :: t1, [], i, e => by simp [chkLoop1, commonRun]

theorem chkTail_spec : ∀ (r : Str) (e : Bool),
    chkTail r e = (r.dropWhile isValidDigit, e && decide (r.takeWhile isValidDigit = []))
  | [], e => by simp [chkTail]
  | c :: t, e => by
    by_cases h : isValidDigit c = true
    · simp [chkTail, h, chkTail_spec t false, List.dropWhile_cons, List.takeWhile_cons]
    · simp [chkTail, h, List.dropWhile_cons, List.takeWhile_cons]

theorem commonRun_take_valid_left : ∀ (n1 n2 : Str),
    ∀ c ∈ n1.take (commonRun n1 n2), isValidDigit c = true
  | c1 :: t1, c2 :: t2, c, hc => by
    by_cases h : (isValidDigit c1 && isValidDigit c2) = true
    · rw [commonRun, if_pos h] at hc
      rcases List.mem_cons.mp hc with rfl | hmem
      · rw [Bool.and_eq_true] at h
        exact h.1
      · exact commonRun_take_valid_left t1 t2 c hmem
    · rw [commonRun, if_neg h] at hc
      simp at hc
  | [], n2, c, hc => by simp [commonRun] at hc
  | c1 :: t1, [], c, hc => by simp [commonRun] at hc

theorem commonRun_take_valid_right : ∀ (n1 n2 : Str),
    ∀ c ∈ n2.take (commonRun n1 n2), isValidDigit c = true
  | c1 :: t1, c2 :: t2, c, hc => by
    by_cases h : (isValidDigit c1 && isValidDigit c2) = true
    · rw [commonRun, if_pos h] at hc
      rcases List.mem_cons.mp hc with rfl | hmem
      · rw [Bool.and_eq_true] at h
        exact h.2
      · exact commonRun_take_valid_right t1 t2 c hmem
    · rw [commonRun, if_neg h] at hc
      simp at hc
  | [], n2, c, hc => by simp [commonRun] at hc
  | c1 :: t1, [], c, hc => by simp [commonRun] at hc

theorem commonRun_of_valid : ∀ (n1 n2 : Str),
    (∀ c ∈ n1, isValidDigit c = true) → (∀ c ∈ n2, isValidDigit c = true) →
    commonRun n1 n2 = min n1.length n2.length
  | c1 :: t1, c2 :: t2, h1, h2 => by
    have hv : (isValidDigit c1 && isValidDigit c2) = true := by
      rw [Bool.and_eq_true]
      exact ⟨h1 c1 (List.mem_cons_self _ _), h2 c2 (List.mem_cons_self _ _)⟩
    rw [commonRun, if_pos hv,
      commonRun_of_valid t1 t2 (fun c hc => h1 c (List.mem_cons_of_mem _ hc))
        (fun c hc => h2 c (List.mem_cons_of_mem _ hc))]
    simp [List.length_cons, Nat.succ_min_succ]
  | [], n2, _, _ => by simp [commonRun]
  | c1 :: t1, [], _, _ => by simp [commonRun]

theorem commonRun_pos_left : ∀ (n1 n2 : Str), commonRun n1 n2 ≠ 0 → n1 ≠ [] ∧ n2 ≠ []
  | c1 :: t1, c2 :: t2, _ => ⟨List.cons_ne_nil _ _, List.cons_ne_nil _ _⟩
  | [], n2, h => absurd (by simp [commonRun]) h
  | c1 :: t1, [], h => absurd (by simp [commonRun]) h

/-- C9: `checkNumbers(num1, num2)` returns true iff both strings are
valid numbers (non-empty, only the twelve symbols, no trailing
characters) and the two numbers are not equal.  The strings are
NUL-free (a `Str` that models a C string contains no `'\0'`). -/
theorem checkNumbers_iff {n1 n2 : Str} (h1 : nulFree n1) (h2 : nulFree n2) :
    checkNumbers n1 n2 = true ↔ validNumber n1 ∧ validNumber n2 ∧ n1 ≠ n2 := by
  have hd1 : nulFree (n1.drop (commonRun n1 n2)) :=
    fun c hc => h1 c ((List.drop_sublist _ _).mem hc)
  have hd2 : nulFree (n2.drop (commonRun n1 n2)) :=
    fun c hc => h2 c ((List.drop_sublist _ _).mem hc)
  have hdw1 : nulFree ((n1.drop (commonRun n1 n2)).dropWhile isValidDigit) :=
    fun c hc => hd1 c ((List.dropWhile_sublist _).mem hc)
  have hdw2 : nulFree ((n2.drop (commonRun n1 n2)).dropWhile isValidDigit) :=
    fun c hc => hd2 c ((List.dropWhile_sublist _).mem hc)
  unfold checkNumbers
  rw [chkLoop1_spec]
  simp only []
  rw [chkTail_spec, chkTail_spec]
  simp only []
  set k := commonRun n1 n2 with hk
  constructor
  · intro hres
    -- peel the if-chain
    by_cases hk0 : (0 + k == 0) = true
    · rw [if_pos hk0] at hres; exact absurd hres (by simp)
    rw [if_neg hk0] at hres
    by_cases he1 : cAtEnd ((n1.drop k).dropWhile isValidDigit) = true
    case neg => rw [if_pos (by simp [he1])] at hres; exact absurd hres (by simp)
    rw [if_neg (by simp [he1])] at hres
    by_cases he2 : cAtEnd ((n2.drop k).dropWhile isValidDigit) = true
    case neg => rw [if_pos (by simp [he2])] at hres; exact absurd hres (by simp)
    rw [if_neg (by simp [he2])] at hres
    have hkne : k ≠ 0 := by
      intro h0; apply hk0; simp [h0]
    have hnil1 : (n1.drop k).dropWhile isValidDigit = [] := (cAtEnd_iff hdw1).mp he1
    have hnil2 : (n2.drop k).dropWhile isValidDigit = [] := (cAtEnd_iff hdw2).mp he2
    have hall1 : ∀ c ∈ n1.drop k, isValidDigit c = true := List.dropWhile_eq_nil_iff.mp hnil1
    have hall2 : ∀ c ∈ n2.drop k, isValidDigit c = true := List.dropWhile_eq_nil_iff.mp hnil2
    have hv1 : ∀ c ∈ n1, isValidDigit c = true := by
      intro c hc
      rw [← List.take_append_drop k n1] at hc
      rcases List.mem_append.mp hc with hm | hm
      · exact commonRun_take_valid_left n1 n2 c hm
      · exact hall1 c hm
    have hv2 : ∀ c ∈ n2, isValidDigit c = true := by
      intro c hc
      rw [← List.take_append_drop k n2] at hc
      rcases List.mem_append.mp hc with hm | hm
      · exact commonRun_take_valid_right n1 n2 c hm
      · exact hall2 c hm
    obtain ⟨hne1, hne2⟩ := commonRun_pos_left n1 n2 hkne
    refine ⟨⟨hne1, hv1⟩, ⟨hne2, hv2⟩, ?_⟩
    -- from the final flag being false
    intro heq
    subst heq
    have hmin : k = n1.length := by
      rw [hk, commonRun_of_valid n1 n1 hv1 hv1]; simp
    have hdropnil : n1.drop k = [] := by
      rw [hmin]; simp
    rw [hdropnil] at hres
    simp at hres
  · rintro ⟨⟨hne1, hv1⟩, ⟨hne2, hv2⟩, hne⟩
    have hmin : k = min n1.length n2.length := commonRun_of_valid n1 n2 hv1 hv2
    have hkne : ¬((0 + k == 0) = true) := by
      simp only [Nat.zero_add, beq_iff_eq]
      rw [hmin]
      rcases List.exists_cons_of_ne_nil hne1 with ⟨a, t, rfl⟩
      rcases List.exists_cons_of_ne_nil hne2 with ⟨b, u, rfl⟩
      simp only [List.length_cons]
      omega
    rw [if_neg hkne]
    have hnil1 : (n1.drop k).dropWhile isValidDigit = [] :=
      List.dropWhile_eq_nil_iff.mpr (fun c hc => hv1 c ((List.drop_sublist _ _).mem hc))
    have hnil2 : (n2.drop k).dropWhile isValidDigit = [] :=
      List.dropWhile_eq_nil_iff.mpr (fun c hc => hv2 c ((List.drop_sublist _ _).mem hc))
    rw [if_neg (by simp [hnil1, cAtEnd]), if_neg (by simp [hnil2, cAtEnd])]
    -- the final flag must be false, i.e. not all three decides are true
    have hfinal : (true && decide (n1.take k = n2.take k) &&
        decide ((n1.drop k).takeWhile isValidDigit = []) &&
        decide ((n2.drop k).takeWhile isValidDigit = [])) = false := by
      have htw1 : (n1.drop k).takeWhile isValidDigit = n1.drop k :=
        List.takeWhile_eq_self_iff.mpr (fun c hc => hv1 c ((List.drop_sublist _ _).mem hc))
      have htw2 : (n2.drop k).takeWhile isValidDigit = n2.drop k :=
        List.takeWhile_eq_self_iff.mpr (fun c hc => hv2 c ((List.drop_sublist _ _).mem hc))
      rw [htw1, htw2]
      by_cases hteq : n1.take k = n2.take k
      · by_cases hd1nil : n1.drop k = []
        · -- then n2.drop k cannot also be empty, else n1 = n2
          by_cases hd2nil : n2.drop k = []
          · exfalso
            apply hne
            calc n1 = n1.take k ++ n1.drop k := (List.take_append_drop k n1).symm
              _ = n2.take k ++ n2.drop k := by rw [hteq, hd1nil, hd2nil]
              _ = n2 := List.take_append_drop k n2
          · simp [hteq, hd1nil, hd2nil]
        · simp [hteq, hd1nil]
      · simp [hteq]
    rw [hfinal]
    simp

/-- Witness for C9: `checkNumbers` on the concrete pair `("12","13")`. -/
theorem checkNumbers_iff_witness :
    checkNumbers ['1', '2'] ['1', '3'] = true ∧
    checkNumbers ['1', '2'] ['1', '2'] = false :=
  ⟨(checkNumbers_iff (by decide) (by decide)).mpr (by decide),
    by
      have h := @checkNumbers_iff ['1', '2'] ['1', '2'] (by decide) (by decide)
      cases hb : checkNumbers ['1', '2'] ['1', '2'] with
      | false => rfl
      | true => exact absurd ((h.mp hb).2.2) (by decide)⟩

theorem removeDupLoopM_spec (fuel : Nat) : ∀ (l : List Str) (i : Nat) (a : Str),
    l.length ≤ sizeTW → l.get? i = some a → l.length - i < fuel →
    removeDupLoopM fuel l i = some (l.take (i + 1) ++ dedupGo a (l.drop (i + 1))) := by
  induction fuel with
  | zero =>
    intro l i a _ ha hf
    have hi : i < l.length := (List.get?_eq_some.mp ha).1
    omega
  | succ fuel ih =>
    intro l i a hW ha hf
    have hi : i < l.length := (List.get?_eq_some.mp ha).1
    have hbound : (l.length + sizeTW - 1) % sizeTW = l.length - 1 := by
      have h2 : l.length + sizeTW - 1 = (l.length - 1) + sizeTW := by omega
      rw [h2, Nat.add_mod_right, Nat.mod_eq_of_lt (by omega)]
    rw [removeDupLoopM]
    by_cases hcond : i < (l.length + sizeTW - 1) % sizeTW
    · rw [if_pos hcond]
      rw [hbound] at hcond
      have hi1 : i + 1 < l.length := by omega
      have hb : l.get? (i + 1) = some (l.get ⟨i + 1, hi1⟩) := List.get?_eq_get hi1
      rw [ha, hb]
      set b := l.get ⟨i + 1, hi1⟩ with hbdef
      have hdropcons : l.drop (i + 1) = b :: l.drop (i + 2) := List.drop_eq_get_cons hi1
      show (if areEqual a b = true then removeDupLoopM fuel (l.eraseIdx (i + 1)) i
        else removeDupLoopM fuel l (i + 1)) =
          some (l.take (i + 1) ++ dedupGo a (l.drop (i + 1)))
      by_cases heq : areEqual a b = true
      · rw [if_pos heq]
        have htl : (l.take (i + 1)).length = i + 1 := List.length_take_of_le (by omega)
        have herase : l.eraseIdx (i + 1) = l.take (i + 1) ++ l.drop (i + 2) :=
          List.eraseIdx_eq_take_drop_succ l (i + 1)
        have hW' : (l.eraseIdx (i + 1)).length ≤ sizeTW := by
          rw [List.length_eraseIdx_of_lt hi1]; omega
        have ha' : (l.eraseIdx (i + 1)).get? i = some a := by
          rw [herase, List.get?_append (by omega), List.get?_take (by omega)]
          exact ha
        have hf' : (l.eraseIdx (i + 1)).length - i < fuel := by
          rw [List.length_eraseIdx_of_lt hi1]; omega
        rw [ih (l.eraseIdx (i + 1)) i a hW' ha' hf']
        refine congrArg some ?_
        have e1 : (l.eraseIdx (i + 1)).take (i + 1) = l.take (i + 1) := by
          rw [herase, List.take_append_of_le_length (by omega), List.take_take, Nat.min_self]
        have e2 : (l.eraseIdx (i + 1)).drop (i + 1) = l.drop (i + 2) := by
          rw [herase, List.drop_left' htl]
        rw [e1, e2, hdropcons]
        rw [show dedupGo a (b :: l.drop (i + 2)) = dedupGo a (l.drop (i + 2)) by
          rw [dedupGo, if_pos heq]]
      · rw [if_neg heq]
        rw [ih l (i + 1) b hW hb (by omega)]
        refine congrArg some ?_
        rw [hdropcons,
          show dedupGo a (b :: l.drop (i + 2)) = b :: dedupGo b (l.drop (i + 2)) by
            rw [dedupGo, if_neg heq],
          show l.take (i + 2) = l.take (i + 1) ++ [b] by
            have hb2 : l[i + 1]? = some b := by rw [← List.get?_eq_getElem?]; exact hb
            rw [List.take_succ, hb2]; rfl]
        simp
    · rw [if_neg hcond]
      rw [hbound] at hcond
      have hlast : i = l.length - 1 := by omega
      have hdrop : l.drop (i + 1) = [] := by
        apply List.drop_eq_nil_of_le; omega
      have htake : l.take (i + 1) = l := by
        apply List.take_of_length_le; omega
      rw [hdrop, htake, dedupGo]
      simp

theorem removeDuplicatesM_eq_dedupAdj : ∀ {l : List Str}, l ≠ [] → l.length ≤ sizeTW →
    removeDuplicatesM l = some (dedupAdj l)
  | [], h1, _ => absurd rfl h1
  | a :: t, _, hW => by
    rw [removeDuplicatesM,
      removeDupLoopM_spec ((a :: t).length + 1) (a :: t) 0 a hW (by simp) (by omega)]
    simp [dedupAdj]

theorem removeDuplicatesM_nil : removeDuplicatesM ([] : List Str) = none := by
  rfl

theorem phnumAddM_true {pn pn2 : PhoneNumbersS} {s : Str} {m m2 : Mem}
    (h : phnumAddM pn s m = (true, pn2, m2)) : pn2.array = pn.array ++ [s] := by
  unfold phnumAddM at h
  split at h
  · split at h
    · simp at h
    · rw [Prod.mk.injEq] at h
      obtain ⟨-, h2⟩ := h
      rw [Prod.mk.injEq] at h2
      rw [← h2.1]
  · rw [Prod.mk.injEq] at h
    obtain ⟨-, h2⟩ := h
    rw [Prod.mk.injEq] at h2
    rw [← h2.1]

theorem addAllFromReverseTreeM_nonempty (t : DNode) (num : Str) (pn : PhoneNumbersS) (m : Mem) :
    (addAllFromReverseTreeM t num pn m).1 = true →
    1 ≤ (addAllFromReverseTreeM t num pn m).2.1.array.length := by
  intro h
  rcases hgo : addAllGo t num num 0 pn m with ⟨ok, pn1, m1⟩
  simp only [addAllFromReverseTreeM, hgo] at h ⊢
  cases ok with
  | false => simp at h
  | true =>
    simp only [Bool.not_true, Bool.false_eq_true, if_false] at h ⊢
    cases hma : allocTake m1 with
    | none => simp [hma] at h
    | some m2 =>
      simp only [hma] at h ⊢
      rcases hadd : phnumAddM pn1 (copyNumberVal num) m2 with ⟨ok2, pn2, m3⟩
      simp only [hadd] at h ⊢
      cases ok2 with
      | false => simp at h
      | true =>
        rw [phnumAddM_true hadd]
        simp

/-- C10: `removeDuplicates` is safe exactly for non-empty vectors.  For
any vector of size at least 1 (and at most `2^64`, the range of
`size_t`), the loop stays in bounds and removes exactly the adjacent
`areEqual`-equal elements (`dedupAdj`); for the empty vector the
unsigned bound `size - 1` wraps around and the first access is already
out of bounds (`none`); and every caller establishes non-emptiness
because `addAllFromReverseTree` unconditionally appends the queried
number itself on success. -/
theorem removeDuplicates_inbounds :
    (∀ l : List Str, 1 ≤ l.length → l.length ≤ sizeTW →
      removeDuplicatesM l = some (dedupAdj l)) ∧
    removeDuplicatesM [] = none ∧
    (∀ (t : DNode) (num : Str) (pn : PhoneNumbersS) (m : Mem),
      (addAllFromReverseTreeM t num pn m).1 = true →
      1 ≤ (addAllFromReverseTreeM t num pn m).2.1.array.length) :=
  ⟨fun l h1 hW =>
      removeDuplicatesM_eq_dedupAdj (List.length_pos.mp (by omega)) hW,
    removeDuplicatesM_nil,
    addAllFromReverseTreeM_nonempty⟩

/-- Witness for C10 at a concrete vector. -/
theorem removeDuplicates_inbounds_witness :
    removeDuplicatesM [['1'], ['1'], ['2']] = some [['1'], ['2']] := by
  rw [removeDuplicates_inbounds.1 [['1'], ['1'], ['2']] (by decide) (by decide)]
  rfl

theorem validNull : isValidDigit nullChar = false := by decide

theorem char_toNat_inj {c d : Char} (h : c.toNat = d.toNat) : c = d := by
  have h2 := congrArg Char.ofNat h
  rwa [Char.ofNat_toNat, Char.ofNat_toNat] at h2

theorem isDigit_bounds {c : Char} (h : c.isDigit = true) : 48 ≤ c.toNat ∧ c.toNat ≤ 57 := by
  unfold Char.isDigit at h
  rw [Bool.and_eq_true] at h
  obtain ⟨h1, h2⟩ := h
  rw [decide_eq_true_eq] at h1 h2
  exact ⟨h1, h2⟩

theorem valid_cases {c : Char} (h : isValidDigit c = true) :
    c.isDigit = true ∨ c = '*' ∨ c = '#' := by
  unfold isValidDigit at h
  rw [Bool.or_eq_true, Bool.or_eq_true] at h
  rcases h with (hd | hstar) | hhash
  · exact Or.inl hd
  · exact Or.inr (Or.inl (by rwa [beq_iff_eq] at hstar))
  · exact Or.inr (Or.inr (by rwa [beq_iff_eq] at hhash))

theorem toDecimal_of_digit {c : Char} (h : c.isDigit = true) :
    toDecimalRepresentation c = c.toNat - 48 ∧ 48 ≤ c.toNat ∧ c.toNat ≤ 57 := by
  obtain ⟨h1, h2⟩ := isDigit_bounds h
  have hstar : c ≠ '*' := by
    rintro rfl
    exact absurd h1 (by decide)
  have hhash : c ≠ '#' := by
    rintro rfl
    exact absurd h1 (by decide)
  rw [toDecimalRepresentation, if_neg hstar, if_neg hhash]
  exact ⟨rfl, h1, h2⟩

theorem toDecimal_inj {c d : Char} (hc : isValidDigit c = true) (hd : isValidDigit d = true)
    (h : toDecimalRepresentation c = toDecimalRepresentation d) : c = d := by
  rcases valid_cases hc with h1 | rfl | rfl <;> rcases valid_cases hd with h2 | rfl | rfl
  · obtain ⟨e1, b1, b2⟩ := toDecimal_of_digit h1
    obtain ⟨e2, b3, b4⟩ := toDecimal_of_digit h2
    rw [e1, e2] at h
    exact char_toNat_inj (by omega)
  · obtain ⟨e1, b1, b2⟩ := toDecimal_of_digit h1
    rw [e1, show toDecimalRepresentation '*' = 10 from rfl] at h
    omega
  · obtain ⟨e1, b1, b2⟩ := toDecimal_of_digit h1
    rw [e1, show toDecimalRepresentation '#' = 11 from rfl] at h
    omega
  · obtain ⟨e2, b3, b4⟩ := toDecimal_of_digit h2
    rw [e2, show toDecimalRepresentation '*' = 10 from rfl] at h
    omega
  · rfl
  · exact absurd h (by decide)
  · obtain ⟨e2, b3, b4⟩ := toDecimal_of_digit h2
    rw [e2, show toDecimalRepresentation '#' = 11 from rfl] at h
    omega
  · exact absurd h (by decide)
  · rfl

theorem digitsOf_nil : digitsOf [] = [] := rfl

theorem digitsOf_cons_valid {c : Char} (t : Str) (h : isValidDigit c = true) :
    digitsOf (c :: t) = toDecimalRepresentation c :: digitsOf t := by
  unfold digitsOf
  rw [List.takeWhile_cons, if_pos h, List.map_cons]

theorem digitsOf_cons_invalid {c : Char} (t : Str) (h : ¬ isValidDigit c = true) :
    digitsOf (c :: t) = [] := by
  unfold digitsOf
  rw [List.takeWhile_cons, if_neg h, List.map_nil]

theorem cmp_eq_lexCmp : ∀ (a b : Str),
    comparePhoneNumbers a b = lexCmp (digitsOf a) (digitsOf b)
  | c1 :: t1, c2 :: t2 => by
    by_cases h : (isValidDigit c1 && isValidDigit c2) = true
    · have h' := h
      rw [Bool.and_eq_true] at h'
      rw [comparePhoneNumbers, if_pos h, digitsOf_cons_valid t1 h'.1,
        digitsOf_cons_valid t2 h'.2, lexCmp]
      split_ifs
      · rfl
      · rfl
      · exact cmp_eq_lexCmp t1 t2
    · rw [comparePhoneNumbers, if_neg h]
      rw [Bool.and_eq_true] at h
      by_cases h1 : isValidDigit c1 = true
      · have h2 : ¬ isValidDigit c2 = true := fun hh => h ⟨h1, hh⟩
        rw [digitsOf_cons_valid t1 h1, digitsOf_cons_invalid t2 h2]
        simp [cmpEnd, h1, lexCmp]
      · rw [digitsOf_cons_invalid t1 h1]
        by_cases h2 : isValidDigit c2 = true
        · rw [digitsOf_cons_valid t2 h2]
          simp [cmpEnd, h1, h2, lexCmp]
        · rw [digitsOf_cons_invalid t2 h2]
          simp [cmpEnd, h1, h2, lexCmp]
  | [], c2 :: t2 => by
    by_cases h2 : isValidDigit c2 = true
    · rw [comparePhoneNumbers, digitsOf_nil, digitsOf_cons_valid t2 h2]
      simp [cmpEnd, validNull, h2, lexCmp]
    · rw [comparePhoneNumbers, digitsOf_nil, digitsOf_cons_invalid t2 h2]
      simp [cmpEnd, validNull, h2, lexCmp]
  | [], [] => by
    rw [comparePhoneNumbers]
    simp [cmpEnd, validNull, lexCmp]
  | c1 :: t1, [] => by
    by_cases h1 : isValidDigit c1 = true
    · rw [comparePhoneNumbers, digitsOf_nil, digitsOf_cons_valid t1 h1]
      simp [cmpEnd, validNull, h1, lexCmp]
    · rw [comparePhoneNumbers, digitsOf_nil, digitsOf_cons_invalid t1 h1]
      simp [cmpEnd, validNull, h1, lexCmp]

theorem lexCmp_self : ∀ a : List Nat, lexCmp a a = 0
  | [] => rfl
  | x :: xs => by
    rw [lexCmp, if_neg (by omega), if_neg (by omega)]
    exact lexCmp_self xs

theorem lexCmp_swap : ∀ a b : List Nat, lexCmp a b = -lexCmp b a
  | [], [] => rfl
  | [], y :: ys => rfl
  | x :: xs, [] => rfl
  | x :: xs, y :: ys => by
    rw [lexCmp, lexCmp]
    have h := lexCmp_swap xs ys
    split_ifs <;> omega

theorem lexCmp_zero : ∀ a b : List Nat, lexCmp a b = 0 → a = b
  | [], [], _ => rfl
  | [], y :: ys, h => by rw [lexCmp] at h; omega
  | x :: xs, [], h => by rw [lexCmp] at h; omega
  | x :: xs, y :: ys, h => by
    rw [lexCmp] at h
    split_ifs at h with h1 h2
    · exact absurd h (by norm_num)
    · have hxy : x = y := by omega
      have ht : xs = ys := lexCmp_zero xs ys h
      rw [hxy, ht]

theorem lexCmp_trans : ∀ a b c : List Nat, lexCmp a b ≤ 0 → lexCmp b c ≤ 0 → lexCmp a c ≤ 0
  | [], b, [], _, _ => by rw [lexCmp]
  | [], b, z :: zs, _, _ => by rw [lexCmp]; omega
  | x :: xs, [], c, h1, _ => by rw [lexCmp] at h1; omega
  | x :: xs, y :: ys, [], _, h2 => by rw [lexCmp] at h2; omega
  | x :: xs, y :: ys, z :: zs, h1, h2 => by
    rw [lexCmp] at h1 h2 ⊢
    rcases Nat.lt_trichotomy x y with hxy | hxy | hxy
    · rcases Nat.lt_trichotomy y z with hyz | hyz | hyz
      · rw [if_neg (by omega), if_pos (by omega)]
        omega
      · rw [if_neg (by omega), if_pos (by omega)]
        omega
      · rw [if_pos hyz] at h2
        omega
    · rw [if_neg (by omega), if_neg (by omega)] at h1
      rcases Nat.lt_trichotomy y z with hyz | hyz | hyz
      · rw [if_neg (by omega), if_pos (by omega)]
        omega
      · rw [if_neg (by omega), if_neg (by omega)] at h2
        rw [if_neg (by omega), if_neg (by omega)]
        exact lexCmp_trans xs ys zs h1 h2
      · rw [if_pos hyz] at h2
        omega
    · rw [if_pos hxy] at h1
      omega

theorem cmp_self (a : Str) : comparePhoneNumbers a a = 0 := by
  rw [cmp_eq_lexCmp]
  exact lexCmp_self _

theorem cmpLe_total (a b : Str) : cmpLe a b ∨ cmpLe b a := by
  unfold cmpLe
  rw [cmp_eq_lexCmp, cmp_eq_lexCmp, lexCmp_swap (digitsOf b)]
  omega

theorem cmpLe_trans {a b c : Str} (h1 : cmpLe a b) (h2 : cmpLe b c) : cmpLe a c := by
  unfold cmpLe at *
  rw [cmp_eq_lexCmp] at *
  exact lexCmp_trans _ _ _ h1 h2

theorem cmpLe_of_not_cmpLe {a b : Str} (h : ¬ cmpLe a b) : cmpLe b a := by
  unfold cmpLe at *
  rw [cmp_eq_lexCmp] at *
  rw [lexCmp_swap]
  omega

theorem areEqual_iff_valid : ∀ {a b : Str}, validChars a → validChars b →
    (areEqual a b = true ↔ a = b)
  | [], [], _, _ => by simp [areEqual, cAtEnd]
  | [], c :: t, _, hb => by
    have hc := hb c (List.mem_cons_self _ _)
    simp [areEqual, cAtEnd, valid_ne_null hc]
  | c :: t, [], ha, _ => by
    have hc := ha c (List.mem_cons_self _ _)
    simp [areEqual, cAtEnd, valid_ne_null hc]
  | c1 :: t1, c2 :: t2, ha, hb => by
    have h1 := ha c1 (List.mem_cons_self _ _)
    have h2 := hb c2 (List.mem_cons_self _ _)
    have hta : validChars t1 := fun c hc => ha c (List.mem_cons_of_mem _ hc)
    have htb : validChars t2 := fun c hc => hb c (List.mem_cons_of_mem _ hc)
    rw [areEqual, if_pos (by rw [Bool.and_eq_true]; exact ⟨h1, h2⟩)]
    by_cases hc : (c1 == c2) = true
    · rw [if_pos hc, areEqual_iff_valid hta htb]
      rw [beq_iff_eq] at hc
      subst hc
      simp
    · rw [if_neg hc]
      rw [beq_iff_eq] at hc
      simp [hc]

theorem digitsOf_inj_valid : ∀ {a b : Str}, validChars a → validChars b →
    digitsOf a = digitsOf b → a = b
  | [], [], _, _, _ => rfl
  | [], c :: t, _, hb, h => by
    rw [digitsOf_nil, digitsOf_cons_valid t (hb c (List.mem_cons_self _ _))] at h
    exact absurd h (by simp)
  | c :: t, [], ha, _, h => by
    rw [digitsOf_nil, digitsOf_cons_valid t (ha c (List.mem_cons_self _ _))] at h
    exact absurd h (by simp)
  | c1 :: t1, c2 :: t2, ha, hb, h => by
    have h1 := ha c1 (List.mem_cons_self _ _)
    have h2 := hb c2 (List.mem_cons_self _ _)
    rw [digitsOf_cons_valid t1 h1, digitsOf_cons_valid t2 h2, List.cons_eq_cons] at h
    rw [toDecimal_inj h1 h2 h.1,
      digitsOf_inj_valid (fun c hc => ha c (List.mem_cons_of_mem _ hc))
        (fun c hc => hb c (List.mem_cons_of_mem _ hc)) h.2]

theorem cmp_zero_iff_valid {a b : Str} (ha : validChars a) (hb : validChars b) :
    comparePhoneNumbers a b = 0 ↔ a = b := by
  constructor
  · intro h
    rw [cmp_eq_lexCmp] at h
    exact digitsOf_inj_valid ha hb (lexCmp_zero _ _ h)
  · rintro rfl
    exact cmp_self a

theorem cmpLt_of_le_ne {a b : Str} (ha : validChars a) (hb : validChars b)
    (hle : cmpLe a b) (hne : ¬ areEqual a b = true) : cmpLt a b := by
  unfold cmpLe at hle
  unfold cmpLt
  rcases lt_or_eq_of_le hle with h | h
  · exact h
  · exact absurd ((areEqual_iff_valid ha hb).mpr ((cmp_zero_iff_valid ha hb).mp h)) hne

theorem cmpLt_trans_valid {a b c : Str} (ha : validChars a) (hc : validChars c)
    (h1 : cmpLt a b) (h2 : cmpLt b c) : cmpLt a c := by
  have hle : cmpLe a c :=
    cmpLe_trans (show cmpLe a b from le_of_lt h1) (show cmpLe b c from le_of_lt h2)
  unfold cmpLt cmpLe at *
  rcases lt_or_eq_of_le hle with h | h
  · exact h
  · have hac : a = c := (cmp_zero_iff_valid ha hc).mp h
    subst hac
    rw [cmp_eq_lexCmp] at h1 h2
    rw [lexCmp_swap] at h2
    omega

theorem symbLe_cons_same {c : Char} {t1 t2 : Str} :
    symbLe (c :: t1) (c :: t2) ↔ symbLe t1 t2 := by
  unfold symbLe
  constructor
  · rintro (hlex | heq)
    · cases hlex with
      | cons h => exact Or.inl h
      | rel h => exact absurd h (by unfold encLt; omega)
    · rw [List.cons_eq_cons] at heq
      exact Or.inr heq.2
  · rintro (hlex | rfl)
    · exact Or.inl (List.Lex.cons hlex)
    · exact Or.inr rfl

theorem cmpLe_iff_symbLe : ∀ {a b : Str}, validChars a → validChars b →
    (cmpLe a b ↔ symbLe a b)
  | [], [], _, _ => by
    refine iff_of_true ?_ (Or.inr rfl)
    unfold cmpLe
    decide
  | [], c :: t, _, hb => by
    refine iff_of_true ?_ (Or.inl List.Lex.nil)
    have hc := hb c (List.mem_cons_self _ _)
    unfold cmpLe
    rw [comparePhoneNumbers]
    simp [cmpEnd, validNull, hc]
  | c :: t, [], ha, _ => by
    have hc := ha c (List.mem_cons_self _ _)
    refine iff_of_false ?_ ?_
    · unfold cmpLe
      rw [comparePhoneNumbers]
      simp [cmpEnd, validNull, hc]
    · rintro (hlex | heq)
      · cases hlex
      · simp at heq
  | c1 :: t1, c2 :: t2, ha, hb => by
    have h1 := ha c1 (List.mem_cons_self _ _)
    have h2 := hb c2 (List.mem_cons_self _ _)
    have hta : validChars t1 := fun c hc => ha c (List.mem_cons_of_mem _ hc)
    have htb : validChars t2 := fun c hc => hb c (List.mem_cons_of_mem _ hc)
    unfold cmpLe
    rw [comparePhoneNumbers, if_pos (by rw [Bool.and_eq_true]; exact ⟨h1, h2⟩)]
    rcases Nat.lt_trichotomy (toDecimalRepresentation c1) (toDecimalRepresentation c2)
      with hv | hv | hv
    · rw [if_neg (by omega), if_pos hv]
      refine iff_of_true (by norm_num) (Or.inl (List.Lex.rel ?_))
      unfold encLt
      exact hv
    · have hcc : c1 = c2 := toDecimal_inj h1 h2 hv
      subst hcc
      rw [if_neg (by omega), if_neg (by omega), symbLe_cons_same]
      exact cmpLe_iff_symbLe hta htb
    · rw [if_pos hv]
      refine iff_of_false (by norm_num) ?_
      rintro (hlex | heq)
      · cases hlex with
        | cons h => omega
        | rel h => exact absurd h (by unfold encLt; omega)
      · rw [List.cons_eq_cons] at heq
        rw [heq.1] at hv
        omega

theorem insertNum_perm (a : Str) : ∀ l : List Str, (insertNum a l).Perm (a :: l)
  | [] => List.Perm.refl _
  | b :: t => by
    rw [insertNum]
    split_ifs
    · exact List.Perm.refl _
    · exact ((insertNum_perm a t).cons b).trans (List.Perm.swap a b t)

theorem sortPhoneNumbersM_perm : ∀ l : List Str, (sortPhoneNumbersM l).Perm l
  | [] => List.Perm.refl _
  | a :: t => by
    rw [sortPhoneNumbersM]
    exact (insertNum_perm a _).trans ((sortPhoneNumbersM_perm t).cons a)

theorem insertNum_pairwise (a : Str) : ∀ {l : List Str}, l.Pairwise cmpLe →
    (insertNum a l).Pairwise cmpLe
  | [], _ => by simp [insertNum]
  | b :: t, h => by
    rw [List.pairwise_cons] at h
    obtain ⟨hb, ht⟩ := h
    rw [insertNum]
    split_ifs with hab
    · rw [List.pairwise_cons]
      refine ⟨?_, ?_⟩
      · intro x hx
        rcases List.mem_cons.mp hx with rfl | hx
        · exact hab
        · exact cmpLe_trans hab (hb x hx)
      · rw [List.pairwise_cons]
        exact ⟨hb, ht⟩
    · rw [List.pairwise_cons]
      refine ⟨?_, insertNum_pairwise a ht⟩
      intro x hx
      have hx2 : x ∈ a :: t := (insertNum_perm a t).subset hx
      rcases List.mem_cons.mp hx2 with rfl | hx2
      · exact cmpLe_of_not_cmpLe hab
      · exact hb x hx2

theorem sortPhoneNumbersM_pairwise : ∀ l : List Str, (sortPhoneNumbersM l).Pairwise cmpLe
  | [] => by simp [sortPhoneNumbersM]
  | a :: t => by
    rw [sortPhoneNumbersM]
    exact insertNum_pairwise a (sortPhoneNumbersM_pairwise t)

theorem dedupGo_sublist : ∀ (l : List Str) (last : Str), (dedupGo last l).Sublist l
  | [], _ => List.Sublist.refl _
  | b :: t, last => by
    rw [dedupGo]
    split_ifs
    · exact (dedupGo_sublist t last).trans (List.sublist_cons_self b t)
    · exact (dedupGo_sublist t b).cons₂ b

theorem dedupAdj_sublist : ∀ l : List Str, (dedupAdj l).Sublist l
  | [] => List.Sublist.refl _
  | a :: t => by
    rw [dedupAdj]
    exact (dedupGo_sublist t a).cons₂ a

theorem dedupGo_strict : ∀ (l : List Str) (last : Str),
    validChars last → (∀ s ∈ l, validChars s) → l.Pairwise cmpLe →
    (∀ x ∈ l, cmpLe last x) →
    (dedupGo last l).Pairwise cmpLt ∧ ∀ x ∈ dedupGo last l, cmpLt last x
  | [], _, _, _, _, _ => ⟨List.Pairwise.nil, by simp [dedupGo]⟩
  | b :: t, last, hlastv, hv, hp, hbound => by
    have hbv : validChars b := hv b (List.mem_cons_self _ _)
    have htv : ∀ s ∈ t, validChars s := fun s hs => hv s (List.mem_cons_of_mem _ hs)
    rw [List.pairwise_cons] at hp
    obtain ⟨hb, ht⟩ := hp
    rw [dedupGo]
    split_ifs with he
    · have hlb : last = b := (areEqual_iff_valid hlastv hbv).mp he
      subst hlb
      exact dedupGo_strict t last hlastv htv ht hb
    · have hlt : cmpLt last b :=
        cmpLt_of_le_ne hlastv hbv (hbound b (List.mem_cons_self _ _)) he
      obtain ⟨hpair, hbnd⟩ := dedupGo_strict t b hbv htv ht hb
      refine ⟨?_, ?_⟩
      · rw [List.pairwise_cons]
        exact ⟨hbnd, hpair⟩
      · intro x hx
        rcases List.mem_cons.mp hx with rfl | hx
        · exact hlt
        · have hxmem : x ∈ t := (dedupGo_sublist t b).mem hx
          exact cmpLt_trans_valid hlastv (htv x hxmem) hlt (hbnd x hx)

theorem dedupAdj_strict {l : List Str} (hv : ∀ s ∈ l, validChars s)
    (hp : l.Pairwise cmpLe) : (dedupAdj l).Pairwise cmpLt := by
  rcases l with _ | ⟨a, t⟩
  · simp [dedupAdj]
  · rw [List.pairwise_cons] at hp
    obtain ⟨ha, ht⟩ := hp
    have hav := hv a (List.mem_cons_self _ _)
    have htv : ∀ s ∈ t, validChars s := fun s hs => hv s (List.mem_cons_of_mem _ hs)
    obtain ⟨hpair, hbnd⟩ := dedupGo_strict t a hav htv ht ha
    rw [dedupAdj, List.pairwise_cons]
    exact ⟨hbnd, hpair⟩

theorem pairwise_ne_of_strict {r : List Str} (h : r.Pairwise cmpLt) :
    r.Pairwise (fun a b => a ≠ b) := by
  refine h.imp ?_
  intro a b hab
  intro heq
  subst heq
  unfold cmpLt at hab
  rw [cmp_self] at hab
  exact absurd hab (by norm_num)

/-- C8: sort-then-dedup hygiene.  Symbols compare by encoded value
(`'*' ↦ 10`, `'#' ↦ 11`, both after `'9' ↦ 9`), and for every non-empty
vector of valid numbers (of size at most `2^64`, the range of `size_t`),
`sortPhoneNumbers` followed by `removeDuplicates` yields a vector that is
sorted in the symbol-wise lexicographic order `symbLe` and contains no
two equal elements. -/
theorem sort_dedup_hygiene :
    toDecimalRepresentation '*' = 10 ∧ toDecimalRepresentation '#' = 11 ∧
    encLt '9' '*' ∧ encLt '*' '#' ∧
    ∀ l : List Str, l ≠ [] → l.length ≤ sizeTW → (∀ s ∈ l, validNumber s) →
      ∃ r, removeDuplicatesM (sortPhoneNumbersM l) = some r ∧
        r.Pairwise symbLe ∧ r.Pairwise (fun a b => a ≠ b) := by
  refine ⟨rfl, rfl, by unfold encLt; decide, by unfold encLt; decide, ?_⟩
  intro l hne hW hval
  have hperm := sortPhoneNumbersM_perm l
  have hsne : sortPhoneNumbersM l ≠ [] := by
    have hlen : (sortPhoneNumbersM l).length = l.length := hperm.length_eq
    intro h0
    rw [h0] at hlen
    exact hne (List.length_eq_zero.mp hlen.symm)
  have hWs : (sortPhoneNumbersM l).length ≤ sizeTW := by
    rw [hperm.length_eq]
    exact hW
  have hvs : ∀ s ∈ sortPhoneNumbersM l, validChars s :=
    fun s hs => (hval s (hperm.subset hs)).2
  have hpair := sortPhoneNumbersM_pairwise l
  refine ⟨dedupAdj (sortPhoneNumbersM l), removeDuplicatesM_eq_dedupAdj hsne hWs, ?_, ?_⟩
  · have hsub := dedupAdj_sublist (sortPhoneNumbersM l)
    have hple : (dedupAdj (sortPhoneNumbersM l)).Pairwise cmpLe :=
      List.Pairwise.sublist hsub hpair
    refine List.Pairwise.imp_of_mem ?_ hple
    intro a b hma hmb hab
    exact (cmpLe_iff_symbLe (hvs a (hsub.mem hma)) (hvs b (hsub.mem hmb))).mp hab
  · exact pairwise_ne_of_strict (dedupAdj_strict hvs hpair)

/-- Witness for C8 at a concrete vector. -/
theorem sort_dedup_hygiene_witness :
    ∃ r, removeDuplicatesM (sortPhoneNumbersM [['2'], ['1'], ['1']]) = some r ∧
      r.Pairwise symbLe ∧ r.Pairwise (fun a b => a ≠ b) :=
  sort_dedup_hygiene.2.2.2.2 [['2'], ['1'], ['1']] (by decide) (by decide) (by decide)

theorem nodeAt_append : ∀ (p : List Nat) (t : DNode) (q : List Nat),
    nodeAt t (p ++ q) = (nodeAt t p).bind (fun n => nodeAt n q)
  | [], t, q => rfl
  | d :: p, t, q => by
    rw [List.cons_append, nodeAt, nodeAt]
    cases hg : getChild t d
    · rfl
    · exact nodeAt_append p _ q

theorem firstMap_cons {t child : DNode} {d : Nat} (h : getChild t d = some child)
    (p : List Nat) : firstMap t (d :: p) = firstMap child p := by
  simp [firstMap, pathMap, nodeAt, h]

theorem firstMap_cons_none {t : DNode} {d : Nat} (h : getChild t d = none)
    (p : List Nat) : firstMap t (d :: p) = none := by
  simp [firstMap, pathMap, nodeAt, h]

theorem bestPfx_congr {f g : List Nat → Option Str} : ∀ (ds : List Nat),
    (∀ p, f p = g p) → bestPfxSpec f ds = bestPfxSpec g ds
  | [], _ => rfl
  | d :: ds, h => by
    rw [bestPfxSpec, bestPfxSpec,
      bestPfx_congr (f := fun p => f (d :: p)) (g := fun p => g (d :: p)) ds
        (fun p => h (d :: p)),
      h [d]]

theorem bestPfx_of_none {f : List Nat → Option Str} : ∀ (ds : List Nat),
    (∀ p, f p = none) → bestPfxSpec f ds = none
  | [], _ => rfl
  | d :: ds, h => by
    rw [bestPfxSpec, bestPfx_of_none (f := fun p => f (d :: p)) ds (fun p => h (d :: p))]
    simp [h [d]]

theorem digitsOf_length {num : Str} (h : validChars num) :
    (digitsOf num).length = num.length := by
  unfold digitsOf
  rw [List.takeWhile_eq_self_iff.mpr h, List.length_map]

theorem fpGo_spec : ∀ (s : Str) (t : DNode) (i : Nat) (acc : Option (Str × Nat)),
    validChars s →
    fpGo t s i acc =
      (match bestPfxSpec (firstMap t) (digitsOf s) with
        | some r => some (r.1, i + r.2)
        | none => acc)
  | [], t, i, acc, _ => by
    simp [fpGo, digitsOf_nil, bestPfxSpec]
  | c :: rest, t, i, acc, hval => by
    have hc := hval c (List.mem_cons_self _ _)
    have hrest : validChars rest := fun x hx => hval x (List.mem_cons_of_mem _ hx)
    rw [fpGo, if_pos hc, digitsOf_cons_valid rest hc]
    cases hg : getChild t (toDecimalRepresentation c) with
    | none =>
      rw [bestPfxSpec,
        bestPfx_of_none (f := fun p => firstMap t (toDecimalRepresentation c :: p))
          (digitsOf rest) (fun p => firstMap_cons_none hg p)]
      simp [firstMap_cons_none hg []]
    | some child =>
      show fpGo child rest (i + 1)
          (match child.numbers with
            | some pn => if 0 < pn.array.length then some (pn.array.headD [], i + 1) else acc
            | none => acc) =
        (match bestPfxSpec (firstMap t) (toDecimalRepresentation c :: digitsOf rest) with
          | some r => some (r.1, i + r.2)
          | none => acc)
      rw [fpGo_spec rest child (i + 1) _ hrest, bestPfxSpec,
        bestPfx_congr (f := fun p => firstMap t (toDecimalRepresentation c :: p))
          (g := firstMap child) (digitsOf rest) (fun p => firstMap_cons hg p)]
      cases hb : bestPfxSpec (firstMap child) (digitsOf rest) with
      | some r =>
        simp only []
        refine congrArg some ?_
        refine congrArg (fun x => (r.1, x)) ?_
        omega
      | none =>
        have hfm : firstMap t [toDecimalRepresentation c] =
            child.numbers.bind (fun pn => pn.array.head?) := by
          rw [firstMap_cons hg []]
          simp [firstMap, pathMap, nodeAt]
        cases hn : child.numbers with
        | none => simp [hfm, hn]
        | some pn =>
          cases harr : pn.array with
          | nil => simp [hfm, hn, harr]
          | cons x xs => simp [hfm, hn, harr]

theorem findPrefixM_spec {t : DNode} {num : Str} (hval : validChars num) :
    findPrefixM t num = bestPfxSpec (firstMap t) (digitsOf num) := by
  rw [findPrefixM, fpGo_spec num t 0 none hval]
  cases hb : bestPfxSpec (firstMap t) (digitsOf num) with
  | none => rfl
  | some r => simp

theorem bestPfx_none_iff {f : List Nat → Option Str} : ∀ (ds : List Nat),
    bestPfxSpec f ds = none ↔ ∀ i, 1 ≤ i → i ≤ ds.length → f (ds.take i) = none
  | [] => by
    simp [bestPfxSpec]
    intro i h1 h2
    omega
  | d :: ds => by
    rw [bestPfxSpec]
    constructor
    · intro h i h1 h2
      have hpair : bestPfxSpec (fun p => f (d :: p)) ds = none ∧ f [d] = none := by
        cases hb : bestPfxSpec (fun p => f (d :: p)) ds with
        | some r => rw [hb] at h; simp at h
        | none =>
          rw [hb] at h
          refine ⟨rfl, ?_⟩
          cases hfd : f [d]
          · rfl
          · rw [hfd] at h; simp at h
      obtain ⟨j, rfl⟩ : ∃ j, i = j + 1 := ⟨i - 1, by omega⟩
      rw [List.take_succ_cons]
      cases j with
      | zero => simpa using hpair.2
      | succ k =>
        have hk := (bestPfx_none_iff (f := fun p => f (d :: p)) ds).mp hpair.1 (k + 1)
          (by omega) (by simp only [List.length_cons] at h2; omega)
        simpa using hk
    · intro hall
      have hg : bestPfxSpec (fun p => f (d :: p)) ds = none := by
        refine (bestPfx_none_iff (f := fun p => f (d :: p)) ds).mpr ?_
        intro j h1 h2
        have hj := hall (j + 1) (by omega) (by simp only [List.length_cons]; omega)
        rw [List.take_succ_cons] at hj
        simpa using hj
      rw [hg]
      have h1 := hall 1 (by omega) (by simp only [List.length_cons]; omega)
      simp only [List.take_succ_cons, List.take_zero] at h1
      simp [h1]

theorem bestPfx_some {f : List Nat → Option Str} : ∀ (ds : List Nat) (T : Str) (L : Nat),
    1 ≤ L → L ≤ ds.length → f (ds.take L) = some T →
    (∀ j, L < j → j ≤ ds.length → f (ds.take j) = none) →
    bestPfxSpec f ds = some (T, L)
  | [], T, L, h1, h2, _, _ => by simp at h2; omega
  | d :: ds, T, L, h1, h2, hT, hnone => by
    rw [bestPfxSpec]
    rcases Nat.lt_or_ge 1 L with hL | hL
    · obtain ⟨Lp, rfl⟩ : ∃ Lp, L = Lp + 1 := ⟨L - 1, by omega⟩
      have hT2 : f (d :: ds.take Lp) = some T := by rwa [List.take_succ_cons] at hT
      have hrec := bestPfx_some (f := fun p => f (d :: p)) ds T Lp (by omega)
        (by simp only [List.length_cons] at h2; omega)
        hT2
        (fun j hj1 hj2 => by
          have hj := hnone (j + 1) (by omega) (by simp only [List.length_cons]; omega)
          rwa [List.take_succ_cons] at hj)
      rw [hrec]
    · have hL1 : L = 1 := by omega
      subst hL1
      have hg : bestPfxSpec (fun p => f (d :: p)) ds = none := by
        refine (bestPfx_none_iff (f := fun p => f (d :: p)) ds).mpr ?_
        intro j hj1 hj2
        have hj := hnone (j + 1) (by omega) (by simp only [List.length_cons]; omega)
        rwa [List.take_succ_cons] at hj
      rw [hg]
      have hT1 : f [d] = some T := by
        simp only [List.take_succ_cons, List.take_zero] at hT
        exact hT
      simp [hT1]

theorem phfwdGetM_some {pf : PhoneForward} {num : Str} {m : Mem} {r : List Str} {m2 : Mem}
    (hnum : isNumber num = true) (h : phfwdGetM pf num m = (some r, m2)) :
    (findPrefixM pf.root num = none → r = [copyNumberVal num]) ∧
    (∀ T L, findPrefixM pf.root num = some (T, L) → r = [copyPartsVal num T L]) := by
  cases hm1 : allocTake m with
  | none => simp [phfwdGetM, hm1] at h
  | some m1 =>
    cases hfp : findPrefixM pf.root num with
    | none =>
      cases hm2 : allocTake m1 with
      | none => simp [phfwdGetM, hm1, hnum, hfp, hm2] at h
      | some m3 =>
        rcases hadd : phnumAddM phnumNewVal (copyNumberVal num) m3 with ⟨ok, pnr, m4⟩
        cases ok with
        | false => simp [phfwdGetM, hm1, hnum, hfp, hm2, hadd] at h
        | true =>
          simp only [phfwdGetM, hm1, hnum, hfp, hm2, hadd, Bool.not_true, Bool.false_eq_true,
            if_false, if_true, Prod.mk.injEq, Option.some.injEq] at h
          have harr := phnumAddM_true hadd
          refine ⟨fun _ => ?_, fun T L hTL => ?_⟩
          · rw [← h.1, harr]
            rfl
          · exact absurd hTL (by simp)
    | some fp =>
      cases hm2 : allocTake m1 with
      | none => simp [phfwdGetM, hm1, hnum, hfp, hm2] at h
      | some m3 =>
        rcases hadd : phnumAddM phnumNewVal (copyPartsVal num fp.1 fp.2) m3 with ⟨ok, pnr, m4⟩
        cases ok with
        | false => simp [phfwdGetM, hm1, hnum, hfp, hm2, hadd] at h
        | true =>
          simp only [phfwdGetM, hm1, hnum, hfp, hm2, hadd, Bool.not_true, Bool.false_eq_true,
            if_false, if_true, Prod.mk.injEq, Option.some.injEq] at h
          have harr := phnumAddM_true hadd
          refine ⟨fun hn => ?_, fun T L hTL => ?_⟩
          · exact absurd hn (by simp)
          · rw [Option.some.injEq] at hTL
            rw [← h.1, harr, hTL]
            rfl

/-- C3: `phfwdGet` implements longest-prefix match with identity default.
For every table, every valid (NUL-free) number and every allocation
budget on which the call succeeds, the single returned element is `num`
itself when no prefix of `num` carries a forwarding, and is `T ++
num.drop L` when the deepest payload-carrying prefix has depth `L` and
(valid) target `T`. -/
theorem phfwdGet_longest_match {pf : PhoneForward} {num : Str} {m : Mem} {r : List Str}
    {m2 : Mem} (hnul : nulFree num) (hnum : isNumber num = true)
    (h : phfwdGetM pf num m = (some r, m2)) :
    ((∀ i, 1 ≤ i → i ≤ num.length → firstMap pf.root ((digitsOf num).take i) = none) →
      r = [num]) ∧
    (∀ T L, 1 ≤ L → L ≤ num.length →
      firstMap pf.root ((digitsOf num).take L) = some T →
      (∀ j, L < j → j ≤ num.length → firstMap pf.root ((digitsOf num).take j) = none) →
      validNumber T → r = [T ++ num.drop L]) := by
  have hvn : validNumber num := (isNumber_iff hnul).mp hnum
  have hval : validChars num := hvn.2
  have hlen : (digitsOf num).length = num.length := digitsOf_length hval
  have hspec := phfwdGetM_some hnum h
  constructor
  · intro hall
    have hbp : bestPfxSpec (firstMap pf.root) (digitsOf num) = none :=
      (bestPfx_none_iff _).mpr (fun i h1 h2 => hall i h1 (by omega))
    have hfp : findPrefixM pf.root num = none := by
      rw [findPrefixM_spec hval, hbp]
    have hr := hspec.1 hfp
    rw [hr, copyNumberVal, List.takeWhile_eq_self_iff.mpr hval]
  · intro T L hL1 hL2 hT hnone hTv
    have hbp : bestPfxSpec (firstMap pf.root) (digitsOf num) = some (T, L) :=
      bestPfx_some _ T L hL1 (by omega) hT (fun j hj1 hj2 => hnone j hj1 (by omega))
    have hfp : findPrefixM pf.root num = some (T, L) := by
      rw [findPrefixM_spec hval, hbp]
    have hr := hspec.2 T L hfp
    rw [hr]
    unfold copyPartsVal
    rw [List.takeWhile_eq_self_iff.mpr hTv.2,
      List.takeWhile_eq_self_iff.mpr
        (fun c hc => hval c ((List.drop_sublist _ _).mem hc))]

/-- Witness for C3: in the table holding the pair `("1","2")`,
`phfwdGet("123")` returns `["223"]`. -/
theorem phfwdGet_longest_match_witness :
    (phfwdGetM (phfwdAddM phfwdNewVal ['1'] ['2'] none).2.1 ['1', '2', '3'] (some 10)).1 =
      some [['2', '2', '3']] := by
  have hc : phfwdGetM (phfwdAddM phfwdNewVal ['1'] ['2'] none).2.1 ['1', '2', '3'] (some 10) =
      (some [['2', '2', '3']], some 7) := by rfl
  have h2 := (phfwdGet_longest_match (by decide) (by decide) hc).2 ['2'] 1
    (by decide) (by decide) (by rfl)
    (by
      intro j hj1 hj2
      have hj3 : j ≤ 3 := by simpa using hj2
      interval_cases j
      · rfl
      · rfl)
    (by decide)
  rw [hc]

theorem numbers_setChild (t : DNode) (d : Nat) (c : Option DNode) :
    (setChild t d c).numbers = t.numbers := by
  cases t
  rfl

theorem next_setChild (t : DNode) (d : Nat) (c : Option DNode) :
    (setChild t d c).next = t.next.set d c := by
  cases t
  rfl

theorem getChild_some_lt {t : DNode} {d : Nat} {c : DNode} (h : getChild t d = some c) :
    d < t.next.length := by
  by_contra hc
  rw [getChild, List.getD_eq_getElem?_getD, List.getElem?_eq_none (by omega)] at h
  simp at h

theorem getChild_setChild_same {t : DNode} {d : Nat} {c : Option DNode}
    (h : d < t.next.length) : getChild (setChild t d c) d = c := by
  rw [getChild, next_setChild, List.getD_eq_getElem?_getD, List.getElem?_set_eq (by simpa)]
  rfl

theorem getChild_setChild_ne {t : DNode} {d d2 : Nat} {c : Option DNode} (h : d ≠ d2) :
    getChild (setChild t d c) d2 = getChild t d2 := by
  rw [getChild, getChild, next_setChild, List.getD_eq_getElem?_getD,
    List.getD_eq_getElem?_getD, List.getElem?_set_ne h]

theorem one_isSome_le_countP : ∀ (l : List (Option DNode)) (i : Nat),
    (l.getD i none).isSome = true → 1 ≤ l.countP Option.isSome
  | [], i, hi => by simp [List.getD] at hi
  | x :: l, 0, hi => by
    rw [List.countP_cons]
    simp only [List.getD_cons_zero] at hi
    rw [hi, if_pos rfl]
    omega
  | x :: l, i + 1, hi => by
    rw [List.countP_cons]
    simp only [List.getD_cons_succ] at hi
    have := one_isSome_le_countP l i hi
    omega

theorem two_isSome_le_countP : ∀ (l : List (Option DNode)) (i j : Nat), i < j →
    (l.getD i none).isSome = true → (l.getD j none).isSome = true →
    2 ≤ l.countP Option.isSome
  | [], i, j, _, hi, _ => by simp [List.getD] at hi
  | x :: l, 0, j + 1, _, hi, hj => by
    rw [List.countP_cons]
    simp only [List.getD_cons_zero] at hi
    simp only [List.getD_cons_succ] at hj
    rw [hi, if_pos rfl]
    have := one_isSome_le_countP l j hj
    omega
  | x :: l, i + 1, j + 1, hij, hi, hj => by
    rw [List.countP_cons]
    simp only [List.getD_cons_succ] at hi hj
    have := two_isSome_le_countP l i j (by omega) hi hj
    omega

theorem getChild_none_of_le_one {t : DNode} {d e : Nat} {c : DNode}
    (hle : numChildren t ≤ 1) (hd : getChild t d = some c) (hne : e ≠ d) :
    getChild t e = none := by
  cases he : getChild t e with
  | none => rfl
  | some x =>
    exfalso
    have hd2 : (t.next.getD d none).isSome = true := by rw [← getChild, hd]; rfl
    have he2 : (t.next.getD e none).isSome = true := by rw [← getChild, he]; rfl
    unfold numChildren at hle
    rcases Nat.lt_or_ge d e with hlt | hge
    · have := two_isSome_le_countP t.next d e hlt hd2 he2
      omega
    · have hlt : e < d := by omega
      have := two_isSome_le_countP t.next e d hlt he2 hd2
      omega

theorem nodeAt_isSome_mono {t : DNode} {p1 p2 : List Nat} (h : p1 <+: p2)
    (hs : (nodeAt t p2).isSome = true) : (nodeAt t p1).isSome = true := by
  obtain ⟨rest, rfl⟩ := h
  rw [nodeAt_append] at hs
  cases hn : nodeAt t p1 with
  | none => rw [hn] at hs; simp at hs
  | some _ => rfl

theorem getChild_setChild_none (t : DNode) (d : Nat) :
    getChild (setChild t d none) d = none := by
  by_cases h : d < t.next.length
  · exact getChild_setChild_same h
  · rw [getChild, next_setChild, List.getD_eq_getElem?_getD, List.getElem?_eq_none]
    · rfl
    · rw [List.length_set]
      omega

theorem detachAt_nodeAt_under : ∀ (p : List Nat) (t : DNode) (d : Nat) (q : List Nat),
    (nodeAt t p).isSome = true → (p ++ [d]) <+: q →
    nodeAt (detachAt t p d) q = none
  | [], t, d, q, _, hq => by
    rw [List.nil_append] at hq
    rcases hq with ⟨rest, hrest⟩
    obtain rfl : q = d :: rest := by rw [← hrest]; rfl
    show nodeAt (setChild t d none) (d :: rest) = none
    rw [nodeAt, getChild_setChild_none]
  | d0 :: p, t, d, q, hs, hq => by
    rw [nodeAt] at hs
    cases hg : getChild t d0 with
    | none => rw [hg] at hs; simp at hs
    | some c =>
      rw [hg] at hs
      rcases hq with ⟨rest, hrest⟩
      obtain rfl : q = d0 :: ((p ++ [d]) ++ rest) := by rw [← hrest]; rfl
      have hdet : detachAt t (d0 :: p) d = setChild t d0 (some (detachAt c p d)) := by
        unfold detachAt
        rw [updateAt, hg]
      rw [hdet, nodeAt, getChild_setChild_same (getChild_some_lt hg)]
      exact detachAt_nodeAt_under p c d _ hs ⟨rest, rfl⟩

theorem detachAt_pathMap_eq : ∀ (p : List Nat) (t : DNode) (d : Nat) (q : List Nat),
    ¬ (p ++ [d]) <+: q → pathMap (detachAt t p d) q = pathMap t q
  | [], t, d, q, hq => by
    show pathMap (setChild t d none) q = pathMap t q
    cases q with
    | nil => simp [pathMap, nodeAt, numbers_setChild]
    | cons e q2 =>
      have hne : d ≠ e := by
        rintro rfl
        exact hq ⟨q2, rfl⟩
      unfold pathMap
      rw [nodeAt, nodeAt, getChild_setChild_ne hne]
  | d0 :: p, t, d, q, hq => by
    cases hg : getChild t d0 with
    | none =>
      have hdet : detachAt t (d0 :: p) d = t := by
        unfold detachAt
        rw [updateAt, hg]
      rw [hdet]
    | some c =>
      have hdet : detachAt t (d0 :: p) d = setChild t d0 (some (detachAt c p d)) := by
        unfold detachAt
        rw [updateAt, hg]
      rw [hdet]
      cases q with
      | nil => simp [pathMap, nodeAt, numbers_setChild]
      | cons e q2 =>
        by_cases he : e = d0
        · subst he
          have hq2 : ¬ (p ++ [d]) <+: q2 := by
            intro hcf
            rcases hcf with ⟨rest, rfl⟩
            exact hq ⟨rest, by simp⟩
          unfold pathMap
          rw [nodeAt, nodeAt, getChild_setChild_same (getChild_some_lt hg), hg]
          exact detachAt_pathMap_eq p c d q2 hq2
        · unfold pathMap
          rw [nodeAt, nodeAt, getChild_setChild_ne (fun hh => he hh.symm)]

theorem snoc_pfx_cases {pos q : List Nat} {d : Nat} (h1 : pos <+: q)
    (h2 : ¬ (pos ++ [d]) <+: q) :
    q = pos ∨ ∃ e q2, q = pos ++ e :: q2 ∧ e ≠ d := by
  rcases h1 with ⟨r, rfl⟩
  cases r with
  | nil => exact Or.inl (List.append_nil pos)
  | cons e q2 =>
    refine Or.inr ⟨e, q2, rfl, ?_⟩
    rintro rfl
    exact h2 ⟨q2, by simp⟩

theorem isNumber_head : ∀ {s : Str}, isNumber s = true →
    ∃ c t, s = c :: t ∧ isValidDigit c = true
  | [], h => by simp [isNumber, isNumLoop] at h
  | c :: t, h => by
    by_cases hc : isValidDigit c = true
    · exact ⟨c, t, rfl, hc⟩
    · rw [isNumber, isNumLoop, if_neg hc] at h
      simp at h

theorem remFindCut_cons_valid (t : DNode) {c : Char} (rest : Str) (pos : List Nat)
    (cut : List Nat × Nat) (last : Bool) (hc : isValidDigit c = true) :
    remFindCut t (c :: rest) pos cut last =
      match getChild t (toDecimalRepresentation c) with
      | none => none
      | some child =>
        if t.numbers.isSome || decide (1 < numChildren t) || !last then
          remFindCut child rest (pos ++ [toDecimalRepresentation c])
            (pos, toDecimalRepresentation c) true
        else
          remFindCut child rest (pos ++ [toDecimalRepresentation c]) cut last := by
  rw [remFindCut, if_pos hc]

theorem remFindCut_cons_none {t : DNode} {c : Char} (rest : Str) (pos : List Nat)
    (cut : List Nat × Nat) (last : Bool) (hc : isValidDigit c = true)
    (hg : getChild t (toDecimalRepresentation c) = none) :
    remFindCut t (c :: rest) pos cut last = none := by
  rw [remFindCut_cons_valid t rest pos cut last hc, hg]

theorem remFindCut_cons_some {t child : DNode} {c : Char} (rest : Str) (pos : List Nat)
    (cut : List Nat × Nat) (last : Bool) (hc : isValidDigit c = true)
    (hg : getChild t (toDecimalRepresentation c) = some child) :
    remFindCut t (c :: rest) pos cut last =
      (if t.numbers.isSome || decide (1 < numChildren t) || !last then
        remFindCut child rest (pos ++ [toDecimalRepresentation c])
          (pos, toDecimalRepresentation c) true
      else
        remFindCut child rest (pos ++ [toDecimalRepresentation c]) cut last) := by
  rw [remFindCut_cons_valid t rest pos cut last hc, hg]

theorem remFindCut_go : ∀ (s : Str) (root t : DNode) (pos : List Nat) (cut : List Nat × Nat),
    nodeAt root pos = some t →
    (cut.1 ++ [cut.2]) <+: pos →
    (nodeAt root cut.1).isSome = true →
    (∀ q, (cut.1 ++ [cut.2]) <+: q → ¬ (pos <+: q) → pathMap root q = none) →
    match remFindCut t s pos cut true with
    | none => nodeAt root (pos ++ digitsOf s) = none
    | some cres => (cres.1 ++ [cres.2]) <+: (pos ++ digitsOf s) ∧
        (nodeAt root cres.1).isSome = true ∧
        (nodeAt root (pos ++ digitsOf s)).isSome = true ∧
        ∀ q, (cres.1 ++ [cres.2]) <+: q → ¬ ((pos ++ digitsOf s) <+: q) →
          pathMap root q = none
  | [], root, t, pos, cut, hroot, hpre, hcs, hgold => by
    rw [digitsOf_nil, List.append_nil]
    exact ⟨hpre, hcs, by rw [hroot]; rfl, hgold⟩
  | c :: rest, root, t, pos, cut, hroot, hpre, hcs, hgold => by
    by_cases hc : isValidDigit c = true
    · have hassoc : pos ++ toDecimalRepresentation c :: digitsOf rest =
          (pos ++ [toDecimalRepresentation c]) ++ digitsOf rest := by simp
      cases hg : getChild t (toDecimalRepresentation c) with
      | none =>
        rw [remFindCut_cons_none rest pos cut true hc hg, digitsOf_cons_valid rest hc]
        show nodeAt root (pos ++ toDecimalRepresentation c :: digitsOf rest) = none
        rw [hassoc, nodeAt_append, nodeAt_append, hroot]
        show (nodeAt t [toDecimalRepresentation c]).bind _ = none
        rw [nodeAt, hg]
        rfl
      | some child =>
        rw [remFindCut_cons_some rest pos cut true hc hg, digitsOf_cons_valid rest hc]
        have hroot2 : nodeAt root (pos ++ [toDecimalRepresentation c]) = some child := by
          rw [nodeAt_append, hroot]
          show nodeAt t [toDecimalRepresentation c] = some child
          rw [nodeAt, hg]
          rfl
        by_cases hcond : (t.numbers.isSome || decide (1 < numChildren t) || !true) = true
        · rw [if_pos hcond, hassoc]
          exact remFindCut_go rest root child (pos ++ [toDecimalRepresentation c])
            (pos, toDecimalRepresentation c) hroot2 ⟨[], List.append_nil _⟩
            (by rw [hroot]; rfl) (fun q h1 h2 => absurd h1 h2)
        · rw [if_neg hcond, hassoc]
          have hflags : t.numbers.isSome = false ∧ decide (1 < numChildren t) = false := by
            cases h1 : t.numbers.isSome <;> cases h2 : decide (1 < numChildren t) <;>
              simp_all
          have hnums : t.numbers = none := by
            cases hn : t.numbers with
            | none => rfl
            | some pn => rw [hn] at hflags; simp at hflags
          have hle : numChildren t ≤ 1 := by
            have := of_decide_eq_false hflags.2
            omega
          refine remFindCut_go rest root child (pos ++ [toDecimalRepresentation c]) cut
            hroot2 (hpre.trans ⟨[toDecimalRepresentation c], rfl⟩) hcs ?_
          intro q hq1 hq2
          by_cases hq3 : pos <+: q
          · rcases snoc_pfx_cases hq3 hq2 with rfl | ⟨e, q2, rfl, hne⟩
            · rw [pathMap, hroot]
              exact hnums
            · have hge : getChild t e = none := getChild_none_of_le_one hle hg hne
              rw [pathMap, nodeAt_append, hroot]
              show (nodeAt t (e :: q2)).bind _ = none
              rw [nodeAt, hge]
              rfl
          · exact hgold q hq1 hq3
    · have hres : remFindCut t (c :: rest) pos cut true = some cut := by
        rw [remFindCut, if_neg hc]
      rw [hres, digitsOf_cons_invalid rest hc, List.append_nil]
      exact ⟨hpre, hcs, by rw [hroot]; rfl, hgold⟩

theorem remFindCut_top {root : DNode} {num : Str} (hnum : isNumber num = true) :
    match remFindCut root num [] ([], 0) false with
    | none => nodeAt root (digitsOf num) = none
    | some cres => (cres.1 ++ [cres.2]) <+: digitsOf num ∧
        (nodeAt root cres.1).isSome = true ∧
        (nodeAt root (digitsOf num)).isSome = true ∧
        ∀ q, (cres.1 ++ [cres.2]) <+: q → ¬ (digitsOf num <+: q) → pathMap root q = none := by
  obtain ⟨c, rest, rfl, hc⟩ := isNumber_head hnum
  cases hg : getChild root (toDecimalRepresentation c) with
  | none =>
    rw [remFindCut_cons_none rest [] ([], 0) false hc hg, digitsOf_cons_valid rest hc]
    show nodeAt root (toDecimalRepresentation c :: digitsOf rest) = none
    rw [nodeAt, hg]
  | some child =>
    rw [remFindCut_cons_some rest [] ([], 0) false hc hg]
    have hcond : (root.numbers.isSome || decide (1 < numChildren root) || !false) = true := by
      simp
    rw [if_pos hcond]
    have hroot2 : nodeAt root ([] ++ [toDecimalRepresentation c]) = some child := by
      show nodeAt root [toDecimalRepresentation c] = some child
      rw [nodeAt, hg]
      rfl
    have h := remFindCut_go rest root child ([] ++ [toDecimalRepresentation c])
      ([], toDecimalRepresentation c) hroot2 ⟨[], List.append_nil _⟩ (by rfl)
      (fun q h1 h2 => absurd h1 h2)
    have he : ([] ++ [toDecimalRepresentation c]) ++ digitsOf rest =
        toDecimalRepresentation c :: digitsOf rest := by simp
    rw [he] at h
    rw [digitsOf_cons_valid rest hc]
    exact h

/-- C5: `phfwdRemove` is a silent no-op on an invalid number or a missing
forward-trie path, and otherwise removes exactly the forwardings whose
source has `num` as a prefix: the reverse trie is untouched, the forward
map afterwards is the original map masked at every path extending
`digitsOf num`, and `findPrefix` (hence `phfwdGet`) behaves on every
number exactly as over that masked map. -/
theorem phfwdRemove_exact {pf : PhoneForward} {num : Str} :
    (¬ isNumber num = true → phfwdRemoveM pf num = pf) ∧
    (isNumber num = true → nodeAt pf.root (digitsOf num) = none → phfwdRemoveM pf num = pf) ∧
    (isNumber num = true → (nodeAt pf.root (digitsOf num)).isSome = true →
      (phfwdRemoveM pf num).reverseRoot = pf.reverseRoot ∧
      (∀ q, pathMap (phfwdRemoveM pf num).root q =
        if digitsOf num <+: q then none else pathMap pf.root q) ∧
      (∀ w, validChars w → findPrefixM (phfwdRemoveM pf num).root w =
        bestPfxSpec (fun p => if digitsOf num <+: p then none else firstMap pf.root p)
          (digitsOf w))) := by
  refine ⟨?_, ?_, ?_⟩
  · intro h
    have hb : isNumber num = false := by
      cases h2 : isNumber num with
      | true => exact absurd h2 h
      | false => rfl
    rw [phfwdRemoveM, hb]
    rfl
  · intro hnum hnone
    have htop := @remFindCut_top pf.root num hnum
    rw [phfwdRemoveM, hnum]
    cases hres : remFindCut pf.root num [] ([], 0) false with
    | none => rfl
    | some cres =>
      rw [hres] at htop
      obtain ⟨hp1, hp2, hp3, hp4⟩ := htop
      rw [hnone] at hp3
      exact absurd hp3 (by simp)
  · intro hnum hsome
    have htop := @remFindCut_top pf.root num hnum
    cases hres : remFindCut pf.root num [] ([], 0) false with
    | none =>
      rw [hres] at htop
      rw [htop] at hsome
      exact absurd hsome (by simp)
    | some cres =>
      rw [hres] at htop
      obtain ⟨hp1, hp2, hp3, hp4⟩ := htop
      have heq : phfwdRemoveM pf num = { pf with root := detachAt pf.root cres.1 cres.2 } := by
        rw [phfwdRemoveM, hnum, hres]
        rfl
      rw [heq]
      refine ⟨rfl, ?_, ?_⟩
      · intro q
        by_cases hq : digitsOf num <+: q
        · rw [if_pos hq, pathMap,
            detachAt_nodeAt_under cres.1 pf.root cres.2 q hp2 (hp1.trans hq)]
          rfl
        · rw [if_neg hq]
          by_cases hq2 : (cres.1 ++ [cres.2]) <+: q
          · rw [pathMap, detachAt_nodeAt_under cres.1 pf.root cres.2 q hp2 hq2,
              hp4 q hq2 hq]
            rfl
          · exact detachAt_pathMap_eq cres.1 pf.root cres.2 q hq2
      · intro w hw
        rw [findPrefixM_spec hw]
        refine bestPfx_congr (digitsOf w) ?_
        intro p
        show firstMap (detachAt pf.root cres.1 cres.2) p =
          if digitsOf num <+: p then none else firstMap pf.root p
        by_cases hp : digitsOf num <+: p
        · rw [if_pos hp, firstMap, pathMap,
            detachAt_nodeAt_under cres.1 pf.root cres.2 p hp2 (hp1.trans hp)]
          rfl
        · rw [if_neg hp, firstMap, firstMap]
          by_cases hp5 : (cres.1 ++ [cres.2]) <+: p
          · rw [pathMap, detachAt_nodeAt_under cres.1 pf.root cres.2 p hp2 hp5,
              hp4 p hp5 hp]
            rfl
          · rw [detachAt_pathMap_eq cres.1 pf.root cres.2 p hp5]

/-- Witness for C5: the one-pair table mapping "1" to "2"; removing "1"
erases that forwarding. -/
theorem phfwdRemove_exact_witness :
    isNumber ['1'] = true ∧
    pathMap (phfwdRemoveM (PhoneForward.mk (DNode.mk none
        ((List.replicate 12 (none : Option DNode)).set 1
          (some (DNode.mk (some (PhoneNumbersS.mk [['2']] 1)) (List.replicate 12 none)))))
        emptyNode) ['1']).root [1] = none := by
  refine ⟨by decide, ?_⟩
  have h := (@phfwdRemove_exact (PhoneForward.mk (DNode.mk none
      ((List.replicate 12 (none : Option DNode)).set 1
        (some (DNode.mk (some (PhoneNumbersS.mk [['2']] 1)) (List.replicate 12 none)))))
      emptyNode) ['1']).2.2 (by decide) (by decide)
  rw [h.2.1 [1], if_pos (by decide)]

theorem getD_replicate_none : ∀ (n d : Nat),
    (List.replicate n (none : Option DNode)).getD d none = none
  | 0, _ => rfl
  | _ + 1, 0 => rfl
  | n + 1, d + 1 => getD_replicate_none n d

theorem getChild_emptyNode (d : Nat) : getChild emptyNode d = none :=
  getD_replicate_none 12 d

theorem set_getD_self : ∀ (l : List (Option DNode)) (d : Nat) (a : Option DNode),
    l.getD d none = a → l.set d a = l
  | [], _, _, h => by rw [← h]; rfl
  | x :: l, 0, a, h => by rw [List.getD_cons_zero] at h; rw [← h]; rfl
  | x :: l, d + 1, a, h => by
    rw [List.getD_cons_succ] at h
    show x :: l.set d a = x :: l
    rw [set_getD_self l d a h]

theorem setChild_eq_self {t : DNode} {d : Nat} {a : Option DNode} (h : getChild t d = a) :
    setChild t d a = t := by
  cases t with
  | mk n l =>
    show DNode.mk n (l.set d a) = DNode.mk n l
    rw [set_getD_self l d a h]

theorem setChild_setChild (t : DNode) (d : Nat) (a b : Option DNode) :
    setChild (setChild t d a) d b = setChild t d b := by
  cases t with
  | mk n l =>
    show DNode.mk n ((l.set d a).set d b) = DNode.mk n (l.set d b)
    rw [List.set_set]

theorem length_next_setChild (t : DNode) (d : Nat) (c : Option DNode) :
    (setChild t d c).next.length = t.next.length := by
  rw [next_setChild, List.length_set]

theorem toDecimal_lt12 {c : Char} (h : isValidDigit c = true) :
    toDecimalRepresentation c < 12 := by
  rcases valid_cases h with hd | rfl | rfl
  · obtain ⟨he, h1, h2⟩ := toDecimal_of_digit hd
    omega
  · decide
  · decide

theorem buildChain_succ : ∀ (s : Str) (m : Mem),
    (buildChain s m).2.2 = true →
    ∃ nd, (buildChain s m).1 = some nd ∧ (nodeAt nd (digitsOf s)).isSome = true
  | [], m, h => by
    cases halloc : allocTake m with
    | none =>
      have heq : buildChain [] m = (none, m, false) := by rw [buildChain, halloc]
      rw [heq] at h
      exact absurd h (by simp)
    | some m1 =>
      have heq : buildChain [] m = (some emptyNode, m1, true) := by rw [buildChain, halloc]
      exact ⟨emptyNode, by rw [heq], rfl⟩
  | c :: rest, m, h => by
    cases halloc : allocTake m with
    | none =>
      have heq : buildChain (c :: rest) m = (none, m, false) := by rw [buildChain, halloc]
      rw [heq] at h
      exact absurd h (by simp)
    | some m1 =>
      by_cases hc : isValidDigit c = true
      · have heq : buildChain (c :: rest) m =
            (some (setChild emptyNode (toDecimalRepresentation c) (buildChain rest m1).1),
             (buildChain rest m1).2.1, (buildChain rest m1).2.2) := by
          rw [buildChain, halloc]
          show (if isValidDigit c = true then
              (some (setChild emptyNode (toDecimalRepresentation c) (buildChain rest m1).1),
               (buildChain rest m1).2.1, (buildChain rest m1).2.2)
            else (some emptyNode, m1, true)) = _
          rw [if_pos hc]
        rw [heq] at h
        obtain ⟨nd2, h1, h2⟩ := buildChain_succ rest m1 h
        refine ⟨setChild emptyNode (toDecimalRepresentation c) (some nd2), ?_, ?_⟩
        · rw [heq, h1]
        · have hlt : toDecimalRepresentation c < emptyNode.next.length := by
            have h1 := toDecimal_lt12 hc
            have h2b : emptyNode.next.length = 12 := rfl
            omega
          rw [digitsOf_cons_valid rest hc, nodeAt, getChild_setChild_same hlt]
          exact h2
      · have heq : buildChain (c :: rest) m = (some emptyNode, m1, true) := by
          rw [buildChain, halloc]
          show (if isValidDigit c = true then
              (some (setChild emptyNode (toDecimalRepresentation c) (buildChain rest m1).1),
               (buildChain rest m1).2.1, (buildChain rest m1).2.2)
            else (some emptyNode, m1, true)) = _
          rw [if_neg hc]
        refine ⟨emptyNode, by rw [heq], ?_⟩
        rw [digitsOf_cons_invalid rest hc]
        rfl

theorem genRaw_cons_eq (t : DNode) {c : Char} (rest : Str) (m : Mem)
    (hc : isValidDigit c = true) :
    genRaw t (c :: rest) m =
      (match getChild t (toDecimalRepresentation c) with
       | some child =>
         (setChild t (toDecimalRepresentation c) (some (genRaw child rest m).1),
          (genRaw child rest m).2.1, (genRaw child rest m).2.2.1,
          (genRaw child rest m).2.2.2.map
            (fun pr => (toDecimalRepresentation c :: pr.1, pr.2)))
       | none =>
         (match (buildChain rest m).1 with
          | none => (t, (buildChain rest m).2.1, false, none)
          | some nd =>
            (setChild t (toDecimalRepresentation c) (some nd),
             (buildChain rest m).2.1, (buildChain rest m).2.2,
             some ([], toDecimalRepresentation c)))) := by
  rw [genRaw, if_pos hc]

theorem genRaw_cons_invalid (t : DNode) {c : Char} (rest : Str) (m : Mem)
    (hc : ¬ isValidDigit c = true) :
    genRaw t (c :: rest) m = (t, m, true, none) := by
  rw [genRaw, if_neg hc]

theorem genRaw_none_eq : ∀ (s : Str) (t : DNode) (m : Mem),
    (genRaw t s m).2.2.2 = none → (genRaw t s m).1 = t
  | [], _, _, _ => rfl
  | c :: rest, t, m, h => by
    by_cases hc : isValidDigit c = true
    · rw [genRaw_cons_eq t rest m hc] at h ⊢
      cases hg : getChild t (toDecimalRepresentation c) with
      | some child =>
        rw [hg] at h
        have h2 : ((genRaw child rest m).2.2.2).map
            (fun pr => (toDecimalRepresentation c :: pr.1, pr.2)) = none := h
        rw [Option.map_eq_none'] at h2
        show setChild t (toDecimalRepresentation c) (some (genRaw child rest m).1) = t
        rw [genRaw_none_eq rest child m h2]
        exact setChild_eq_self hg
      | none =>
        rw [hg] at h
        cases hb : (buildChain rest m).1 with
        | none => rfl
        | some nd =>
          rw [hb] at h
          exact absurd (show some ([], toDecimalRepresentation c) =
            (none : Option (List Nat × Nat)) from h) (by simp)
    · rw [genRaw_cons_invalid t rest m hc]

theorem genRaw_info : ∀ (s : Str) (t : DNode) (m : Mem) (p : List Nat) (d : Nat),
    (genRaw t s m).2.2.2 = some (p, d) →
    nodeAt t (p ++ [d]) = none ∧ (p ++ [d]) <+: digitsOf s ∧
    detachAt (genRaw t s m).1 p d = t
  | [], t, m, p, d, h => by
    exact absurd (show (none : Option (List Nat × Nat)) = some (p, d) from h) (by simp)
  | c :: rest, t, m, p, d, h => by
    by_cases hc : isValidDigit c = true
    · rw [genRaw_cons_eq t rest m hc] at h ⊢
      cases hg : getChild t (toDecimalRepresentation c) with
      | some child =>
        rw [hg] at h
        have h2 : ((genRaw child rest m).2.2.2).map
            (fun pr => (toDecimalRepresentation c :: pr.1, pr.2)) = some (p, d) := h
        cases hi : (genRaw child rest m).2.2.2 with
        | none => rw [hi] at h2; exact absurd h2 (by simp)
        | some pr =>
          rw [hi, Option.map_some'] at h2
          have h3 := Option.some.inj h2
          rw [Prod.mk.injEq] at h3
          obtain ⟨rfl, rfl⟩ := h3
          obtain ⟨ih1, ih2, ih3⟩ := genRaw_info rest child m pr.1 pr.2 hi
          refine ⟨?_, ?_, ?_⟩
          · rw [List.cons_append, nodeAt, hg]
            exact ih1
          · rw [digitsOf_cons_valid rest hc]
            rcases ih2 with ⟨r2, hr2⟩
            exact ⟨r2, by rw [List.cons_append, List.cons_append, hr2]⟩
          · have hgc : getChild (setChild t (toDecimalRepresentation c)
                (some (genRaw child rest m).1)) (toDecimalRepresentation c) =
                some (genRaw child rest m).1 :=
              getChild_setChild_same (getChild_some_lt hg)
            show detachAt (setChild t (toDecimalRepresentation c)
              (some (genRaw child rest m).1)) (toDecimalRepresentation c :: pr.1) pr.2 = t
            have hstep : detachAt (setChild t (toDecimalRepresentation c)
                (some (genRaw child rest m).1)) (toDecimalRepresentation c :: pr.1) pr.2 =
                setChild (setChild t (toDecimalRepresentation c)
                  (some (genRaw child rest m).1)) (toDecimalRepresentation c)
                  (some (detachAt (genRaw child rest m).1 pr.1 pr.2)) := by
              unfold detachAt
              rw [updateAt, hgc]
            rw [hstep, setChild_setChild, ih3]
            exact setChild_eq_self hg
      | none =>
        rw [hg] at h
        cases hb : (buildChain rest m).1 with
        | none =>
          rw [hb] at h
          exact absurd (show (none : Option (List Nat × Nat)) = some (p, d) from h) (by simp)
        | some nd =>
          rw [hb] at h
          have h2 : (some ([], toDecimalRepresentation c) :
              Option (List Nat × Nat)) = some (p, d) := h
          have h3 := Option.some.inj h2
          rw [Prod.mk.injEq] at h3
          obtain ⟨h4, h5⟩ := h3
          rw [← h4, ← h5]
          refine ⟨?_, ?_, ?_⟩
          · rw [List.nil_append, nodeAt, hg]
          · rw [digitsOf_cons_valid rest hc]
            exact ⟨digitsOf rest, rfl⟩
          · show setChild (setChild t (toDecimalRepresentation c) (some nd))
              (toDecimalRepresentation c) none = t
            rw [setChild_setChild]
            exact setChild_eq_self hg
    · rw [genRaw_cons_invalid t rest m hc] at h
      exact absurd (show (none : Option (List Nat × Nat)) = some (p, d) from h) (by simp)

theorem genRaw_succ : ∀ (s : Str) (t : DNode) (m : Mem),
    (∀ p n, nodeAt t p = some n → n.next.length = 12) →
    (genRaw t s m).2.2.1 = true →
    (nodeAt (genRaw t s m).1 (digitsOf s)).isSome = true
  | [], _, _, _, _ => rfl
  | c :: rest, t, m, hwf, h => by
    by_cases hc : isValidDigit c = true
    · rw [genRaw_cons_eq t rest m hc] at h ⊢
      cases hg : getChild t (toDecimalRepresentation c) with
      | some child =>
        rw [hg] at h
        have h2 : (genRaw child rest m).2.2.1 = true := h
        have hwf2 : ∀ p n, nodeAt child p = some n → n.next.length = 12 := by
          intro p n hp
          refine hwf (toDecimalRepresentation c :: p) n ?_
          rw [nodeAt, hg]
          exact hp
        show (nodeAt (setChild t (toDecimalRepresentation c)
          (some (genRaw child rest m).1)) (digitsOf (c :: rest))).isSome = true
        rw [digitsOf_cons_valid rest hc, nodeAt,
          getChild_setChild_same (getChild_some_lt hg)]
        exact genRaw_succ rest child m hwf2 h2
      | none =>
        rw [hg] at h
        cases hb : (buildChain rest m).1 with
        | none =>
          rw [hb] at h
          exact absurd (show false = true from h) (by simp)
        | some nd =>
          rw [hb] at h
          have h2 : (buildChain rest m).2.2 = true := h
          obtain ⟨nd2, h3, h4⟩ := buildChain_succ rest m h2
          rw [hb] at h3
          have hnd : nd = nd2 := Option.some.inj h3
          show (nodeAt (setChild t (toDecimalRepresentation c) (some nd))
            (digitsOf (c :: rest))).isSome = true
          have hlen : toDecimalRepresentation c < t.next.length := by
            have h12 := hwf [] t rfl
            have := toDecimal_lt12 hc
            omega
          rw [digitsOf_cons_valid rest hc, nodeAt, getChild_setChild_same hlen, hnd]
          exact h4
    · rw [genRaw_cons_invalid t rest m hc]
      rw [digitsOf_cons_invalid rest hc]
      rfl

/-- C7: `getEndNode` rolls back on failure and reports the end node and
the undo record on success.  On any failure the returned trie is exactly
the original.  On success the node at the path of `num` exists; when the
undo record is empty nothing was created and the trie is unchanged, and
when it records `(p, d)` the slot `d` of the node at `p` was empty before
the call, lies on the path of `num`, and severing it restores the
original trie exactly (for any trie whose reachable nodes all carry the
12 child slots `nodeNew` allocates). -/
theorem getEndNode_rollback {t : DNode} {num : Str} {m : Mem}
    (hwf : ∀ p n, nodeAt t p = some n → n.next.length = 12) :
    ((getEndNodeM t num m).2.2.1 = false → (getEndNodeM t num m).1 = t) ∧
    ((getEndNodeM t num m).2.2.1 = true →
      (nodeAt (getEndNodeM t num m).1 (digitsOf num)).isSome = true ∧
      ((getEndNodeM t num m).2.2.2 = none → (getEndNodeM t num m).1 = t) ∧
      (∀ p d, (getEndNodeM t num m).2.2.2 = some (p, d) →
        nodeAt t (p ++ [d]) = none ∧ (p ++ [d]) <+: digitsOf num ∧
        detachAt (getEndNodeM t num m).1 p d = t)) := by
  have hunf : getEndNodeM t num m =
      (if (genRaw t num m).2.2.1 = true then genRaw t num m
       else (rollbackDetach (genRaw t num m).1 (genRaw t num m).2.2.2,
             (genRaw t num m).2.1, false, (genRaw t num m).2.2.2)) := rfl
  cases hs : (genRaw t num m).2.2.1 with
  | false =>
    rw [hunf, hs, if_neg (by simp)]
    refine ⟨fun _ => ?_, fun hcon => absurd (show false = true from hcon) (by simp)⟩
    show rollbackDetach (genRaw t num m).1 (genRaw t num m).2.2.2 = t
    cases hi : (genRaw t num m).2.2.2 with
    | none =>
      show (genRaw t num m).1 = t
      exact genRaw_none_eq num t m hi
    | some pr =>
      show detachAt (genRaw t num m).1 pr.1 pr.2 = t
      exact (genRaw_info num t m pr.1 pr.2 (by rw [hi])).2.2
  | true =>
    rw [hunf, hs, if_pos rfl]
    refine ⟨fun hcon => absurd hcon (by simp [hs]), fun _ => ⟨?_, ?_, ?_⟩⟩
    · exact genRaw_succ num t m hwf hs
    · exact genRaw_none_eq num t m
    · intro p d hpd
      exact genRaw_info num t m p d hpd

/-- Witness for C7: creating the path of "1" in the empty trie succeeds
and the created end node is present. -/
theorem getEndNode_rollback_witness :
    (∀ p n, nodeAt emptyNode p = some n → n.next.length = 12) ∧
    (nodeAt (getEndNodeM emptyNode ['1'] none).1 (digitsOf ['1'])).isSome = true := by
  have hwf : ∀ p n, nodeAt emptyNode p = some n → n.next.length = 12 := by
    intro p n hp
    cases p with
    | nil =>
      have h2 : emptyNode = n := Option.some.inj hp
      rw [← h2]
      rfl
    | cons d p2 =>
      rw [nodeAt, getChild_emptyNode d] at hp
      exact absurd (show (none : Option DNode) = some n from hp) (by simp)
  exact ⟨hwf, ((@getEndNode_rollback emptyNode ['1'] none hwf).2 (by rfl)).1⟩

theorem validChars_takeWhile : ∀ (s : Str), validChars (s.takeWhile isValidDigit)
  | [] => by intro c hc; simp [List.takeWhile] at hc
  | a :: t => by
    intro c hc
    rw [List.takeWhile_cons] at hc
    by_cases ha : isValidDigit a = true
    · rw [if_pos ha] at hc
      rcases List.mem_cons.mp hc with rfl | hc2
      · exact ha
      · exact validChars_takeWhile t c hc2
    · rw [if_neg ha] at hc
      simp at hc

theorem validChars_copyParts (orig s : Str) (plen : Nat) :
    validChars (copyPartsVal orig s plen) := by
  intro c hc
  rcases List.mem_append.mp hc with h1 | h2
  · exact validChars_takeWhile s c h1
  · exact validChars_takeWhile (orig.drop plen) c h2

theorem validChars_copyNumber (s : Str) : validChars (copyNumberVal s) :=
  validChars_takeWhile s

theorem phnumAddM_mem {pn : PhoneNumbersS} {s : Str} {m : Mem} :
    ∀ x ∈ (phnumAddM pn s m).2.1.array, x ∈ pn.array ∨ x = s := by
  intro x hx
  unfold phnumAddM at hx
  by_cases h : (pn.array.length + 1 == pn.capacity) = true
  · rw [if_pos h] at hx
    cases halloc : allocTake m with
    | none =>
      rw [halloc] at hx
      exact Or.inl hx
    | some m1 =>
      rw [halloc] at hx
      rcases List.mem_append.mp hx with h1 | h2
      · exact Or.inl h1
      · exact Or.inr (by simpa using h2)
  · rw [if_neg h] at hx
    rcases List.mem_append.mp hx with h1 | h2
    · exact Or.inl h1
    · exact Or.inr (by simpa using h2)

theorem phnumAddAllM_valid : ∀ (src : List Str) (dst : PhoneNumbersS) (orig : Str)
    (plen : Nat) (m : Mem), (∀ x ∈ dst.array, validChars x) →
    ∀ x ∈ (phnumAddAllCopiedPartsM src dst orig plen m).2.1.array, validChars x
  | [], _, _, _, _, hd => hd
  | s :: rest, dst, orig, plen, m, hd => by
    rw [phnumAddAllCopiedPartsM]
    cases halloc : allocTake m with
    | none => exact hd
    | some m1 =>
      have hstep : ∀ x ∈ (phnumAddM dst (copyPartsVal orig s plen) m1).2.1.array,
          validChars x := by
        intro x hx
        rcases phnumAddM_mem x hx with h1 | rfl
        · exact hd x h1
        · exact validChars_copyParts orig s plen
      show ∀ x ∈ ((if (phnumAddM dst (copyPartsVal orig s plen) m1).1 = true then
          phnumAddAllCopiedPartsM rest (phnumAddM dst (copyPartsVal orig s plen) m1).2.1
            orig plen (phnumAddM dst (copyPartsVal orig s plen) m1).2.2
        else (false, (phnumAddM dst (copyPartsVal orig s plen) m1).2.1,
          (phnumAddM dst (copyPartsVal orig s plen) m1).2.2))).2.1.array, validChars x
      by_cases hok : (phnumAddM dst (copyPartsVal orig s plen) m1).1 = true
      · rw [if_pos hok]
        exact phnumAddAllM_valid rest _ orig plen _ hstep
      · rw [if_neg hok]
        exact hstep

theorem addAllGo_valid : ∀ (s : Str) (t : DNode) (orig : Str) (i : Nat) (pn : PhoneNumbersS)
    (m : Mem), (∀ x ∈ pn.array, validChars x) →
    ∀ x ∈ (addAllGo t s orig i pn m).2.1.array, validChars x
  | [], _, _, _, _, _, hp => hp
  | c :: rest, t, orig, i, pn, m, hp => by
    by_cases hc : isValidDigit c = true
    · rw [addAllGo, if_pos hc]
      cases hg : getChild t (toDecimalRepresentation c) with
      | none => exact hp
      | some child =>
        show ∀ x ∈ ((match child.numbers with
            | some pnl =>
              (let r := phnumAddAllCopiedPartsM pnl.array pn orig (i + 1) m;
               if r.1 = true then addAllGo child rest orig (i + 1) r.2.1 r.2.2
               else (false, r.2.1, r.2.2))
            | none => addAllGo child rest orig (i + 1) pn m)).2.1.array, validChars x
        cases hn : child.numbers with
        | none => exact addAllGo_valid rest child orig (i + 1) pn m hp
        | some pnl =>
          have hstep : ∀ x ∈ (phnumAddAllCopiedPartsM pnl.array pn orig (i + 1) m).2.1.array,
              validChars x := phnumAddAllM_valid pnl.array pn orig (i + 1) m hp
          show ∀ x ∈ ((if (phnumAddAllCopiedPartsM pnl.array pn orig (i + 1) m).1 = true then
              addAllGo child rest orig (i + 1)
                (phnumAddAllCopiedPartsM pnl.array pn orig (i + 1) m).2.1
                (phnumAddAllCopiedPartsM pnl.array pn orig (i + 1) m).2.2
            else (false, (phnumAddAllCopiedPartsM pnl.array pn orig (i + 1) m).2.1,
              (phnumAddAllCopiedPartsM pnl.array pn orig (i + 1) m).2.2))).2.1.array,
            validChars x
          by_cases hok : (phnumAddAllCopiedPartsM pnl.array pn orig (i + 1) m).1 = true
          · rw [if_pos hok]
            exact addAllGo_valid rest child orig (i + 1) _ _ hstep
          · rw [if_neg hok]
            exact hstep
    · rw [addAllGo, if_neg hc]
      exact hp

theorem phnumAddM_unbounded (pn : PhoneNumbersS) (s : Str) :
    ∃ pn2, phnumAddM pn s none = (true, pn2, none) ∧ pn2.array = pn.array ++ [s] := by
  by_cases h : (pn.array.length + 1 == pn.capacity) = true
  · refine ⟨{ array := pn.array ++ [s], capacity := pn.capacity * 2 }, ?_, rfl⟩
    unfold phnumAddM
    rw [if_pos h]
    rfl
  · refine ⟨{ pn with array := pn.array ++ [s] }, ?_, rfl⟩
    unfold phnumAddM
    rw [if_neg h]

theorem phnumAddAllM_unbounded : ∀ (src : List Str) (dst : PhoneNumbersS) (orig : Str)
    (plen : Nat), ∃ d2, phnumAddAllCopiedPartsM src dst orig plen none = (true, d2, none)
  | [], dst, _, _ => ⟨dst, rfl⟩
  | s :: rest, dst, orig, plen => by
    obtain ⟨pn2, h1, _⟩ := phnumAddM_unbounded dst (copyPartsVal orig s plen)
    obtain ⟨d2, h3⟩ := phnumAddAllM_unbounded rest pn2 orig plen
    refine ⟨d2, ?_⟩
    rw [phnumAddAllCopiedPartsM]
    show (if (phnumAddM dst (copyPartsVal orig s plen) none).1 = true then
        phnumAddAllCopiedPartsM rest (phnumAddM dst (copyPartsVal orig s plen) none).2.1
          orig plen (phnumAddM dst (copyPartsVal orig s plen) none).2.2
      else (false, (phnumAddM dst (copyPartsVal orig s plen) none).2.1,
        (phnumAddM dst (copyPartsVal orig s plen) none).2.2)) = (true, d2, none)
    rw [h1, if_pos rfl]
    exact h3

theorem addAllGo_unbounded : ∀ (s : Str) (t : DNode) (orig : Str) (i : Nat)
    (pn : PhoneNumbersS), ∃ p2, addAllGo t s orig i pn none = (true, p2, none)
  | [], _, _, _, pn => ⟨pn, rfl⟩
  | c :: rest, t, orig, i, pn => by
    by_cases hc : isValidDigit c = true
    · rw [addAllGo, if_pos hc]
      cases hg : getChild t (toDecimalRepresentation c) with
      | none => exact ⟨pn, rfl⟩
      | some child =>
        show ∃ p2, (match child.numbers with
            | some pnl =>
              (let r := phnumAddAllCopiedPartsM pnl.array pn orig (i + 1) none;
               if r.1 = true then addAllGo child rest orig (i + 1) r.2.1 r.2.2
               else (false, r.2.1, r.2.2))
            | none => addAllGo child rest orig (i + 1) pn none) = (true, p2, none)
        cases hn : child.numbers with
        | none => exact addAllGo_unbounded rest child orig (i + 1) pn
        | some pnl =>
          obtain ⟨d2, h1⟩ := phnumAddAllM_unbounded pnl.array pn orig (i + 1)
          obtain ⟨p2, h2⟩ := addAllGo_unbounded rest child orig (i + 1) d2
          refine ⟨p2, ?_⟩
          show (if (phnumAddAllCopiedPartsM pnl.array pn orig (i + 1) none).1 = true then
              addAllGo child rest orig (i + 1)
                (phnumAddAllCopiedPartsM pnl.array pn orig (i + 1) none).2.1
                (phnumAddAllCopiedPartsM pnl.array pn orig (i + 1) none).2.2
            else (false, (phnumAddAllCopiedPartsM pnl.array pn orig (i + 1) none).2.1,
              (phnumAddAllCopiedPartsM pnl.array pn orig (i + 1) none).2.2)) = (true, p2, none)
          rw [h1, if_pos rfl]
          exact h2
    · rw [addAllGo, if_neg hc]
      exact ⟨pn, rfl⟩

theorem addAllFromReverseTreeM_unbounded (t : DNode) (num : Str) :
    ∃ p2 p3, addAllFromReverseTreeM t num phnumNewVal none = (true, p3, none) ∧
      p3.array = p2.array ++ [copyNumberVal num] ∧
      addAllGo t num num 0 phnumNewVal none = (true, p2, none) := by
  obtain ⟨p2, hgo⟩ := addAllGo_unbounded num t num 0 phnumNewVal
  obtain ⟨p3, h1, h2⟩ := phnumAddM_unbounded p2 (copyNumberVal num)
  refine ⟨p2, p3, ?_, h2, hgo⟩
  rw [addAllFromReverseTreeM, hgo]
  show ((phnumAddM p2 (copyNumberVal num) none).1,
        (phnumAddM p2 (copyNumberVal num) none).2.1,
        (phnumAddM p2 (copyNumberVal num) none).2.2) = (true, p3, none)
  rw [h1]

theorem mem_dedupGo : ∀ (l : List Str) (last x : Str),
    (∀ s ∈ l, validChars s) → validChars last →
    x ∈ l → x = last ∨ x ∈ dedupGo last l
  | [], _, _, _, _, hx => absurd hx (List.not_mem_nil _)
  | b :: t, last, x, hl, hlast, hx => by
    have hb := hl b (List.mem_cons_self _ _)
    have ht : ∀ s ∈ t, validChars s := fun s hs => hl s (List.mem_cons_of_mem _ hs)
    rw [dedupGo]
    by_cases he : areEqual last b = true
    · have hlb : last = b := (areEqual_iff_valid hlast hb).mp he
      rw [if_pos he]
      rcases List.mem_cons.mp hx with rfl | hx2
      · exact Or.inl hlb.symm
      · exact mem_dedupGo t last x ht hlast hx2
    · rw [if_neg he]
      rcases List.mem_cons.mp hx with rfl | hx2
      · exact Or.inr (List.mem_cons_self _ _)
      · rcases mem_dedupGo t b x ht hb hx2 with rfl | h3
        · exact Or.inr (List.mem_cons_self _ _)
        · exact Or.inr (List.mem_cons_of_mem _ h3)

theorem mem_dedupAdj {l : List Str} {x : Str} (hl : ∀ s ∈ l, validChars s)
    (hx : x ∈ l) : x ∈ dedupAdj l := by
  cases l with
  | nil => exact absurd hx (List.not_mem_nil _)
  | cons a t =>
    rw [dedupAdj]
    have ha := hl a (List.mem_cons_self _ _)
    have ht : ∀ s ∈ t, validChars s := fun s hs => hl s (List.mem_cons_of_mem _ hs)
    rcases List.mem_cons.mp hx with rfl | hx2
    · exact List.mem_cons_self _ _
    · rcases mem_dedupGo t a x ht ha hx2 with rfl | h3
      · exact List.mem_cons_self _ _
      · exact List.mem_cons_of_mem _ h3

set_option maxRecDepth 4000 in
/-- C4: the reverse-lookup contract, over the spec-modelled composition
`phfwdReverseM` of the helpers present in `src/` (the final
`phfwdReverse` itself is absent from the snapshot).  With no allocation
failure (`none` budget) and a candidate vector that fits in `size_t`, the
call never returns `null`: it returns the empty sequence for an invalid
number, and for a valid number a sequence that is sorted in the symbol
order, duplicate-free, and contains `num` itself. -/
theorem phfwdReverse_contract {pf : PhoneForward} {num : Str} (hnf : nulFree num)
    (hsz : (addAllFromReverseTreeM pf.reverseRoot num phnumNewVal
      none).2.1.array.length ≤ sizeTW) :
    (¬ isNumber num = true → phfwdReverseM pf num none = (some [], none)) ∧
    (isNumber num = true →
      ∃ res, phfwdReverseM pf num none = (some res, none) ∧
        res.Pairwise symbLe ∧ res.Pairwise (fun a b => a ≠ b) ∧ num ∈ res) := by
  constructor
  · intro h
    have hb : isNumber num = false := by
      cases h2 : isNumber num with
      | true => exact absurd h2 h
      | false => rfl
    simp [phfwdReverseM, allocTake, hb]
  · intro hnum
    obtain ⟨p2, p3, hadd, harr, hgo⟩ := addAllFromReverseTreeM_unbounded pf.reverseRoot num
    have hval : validChars num := ((isNumber_iff hnf).mp hnum).2
    have hcopy : copyNumberVal num = num := List.takeWhile_eq_self_iff.mpr hval
    have hp2v : ∀ x ∈ p2.array, validChars x := by
      have hgv := addAllGo_valid num pf.reverseRoot num 0 phnumNewVal none
        (by intro x hx; exact absurd hx (List.not_mem_nil _))
      rw [hgo] at hgv
      exact hgv
    have hp3v : ∀ x ∈ p3.array, validChars x := by
      intro x hx
      rw [harr] at hx
      rcases List.mem_append.mp hx with h1 | h2
      · exact hp2v x h1
      · rw [List.mem_singleton] at h2
        rw [h2]
        exact validChars_copyNumber num
    have hperm := sortPhoneNumbersM_perm p3.array
    have hLv : ∀ x ∈ sortPhoneNumbersM p3.array, validChars x :=
      fun x hx => hp3v x (hperm.subset hx)
    have hLne : sortPhoneNumbersM p3.array ≠ [] := by
      intro hemp
      rw [hemp] at hperm
      have h0 : p3.array = [] := hperm.symm.eq_nil
      rw [harr] at h0
      simp at h0
    have hLlen : (sortPhoneNumbersM p3.array).length ≤ sizeTW := by
      rw [hperm.length_eq]
      rw [hadd] at hsz
      exact hsz
    have hded := removeDuplicatesM_eq_dedupAdj hLne hLlen
    refine ⟨dedupAdj (sortPhoneNumbersM p3.array), ?_, ?_, ?_, ?_⟩
    · simp [phfwdReverseM, allocTake, hnum, hadd, hded]
    · have hpair := sortPhoneNumbersM_pairwise p3.array
      have hsub := dedupAdj_sublist (sortPhoneNumbersM p3.array)
      have hple := List.Pairwise.sublist hsub hpair
      refine List.Pairwise.imp_of_mem ?_ hple
      intro a b hma hmb hab
      exact (cmpLe_iff_symbLe (hLv a (hsub.mem hma)) (hLv b (hsub.mem hmb))).mp hab
    · exact pairwise_ne_of_strict (dedupAdj_strict hLv (sortPhoneNumbersM_pairwise p3.array))
    · have hmem : num ∈ sortPhoneNumbersM p3.array := by
        refine hperm.mem_iff.mpr ?_
        rw [harr, hcopy]
        exact List.mem_append_right _ (List.mem_singleton_self _)
      exact mem_dedupAdj hLv hmem

/-- Witness for C4: reverse lookup of "1" on the empty table yields
exactly the singleton sequence containing "1". -/
theorem phfwdReverse_contract_witness :
    ∃ res, phfwdReverseM phfwdNewVal ['1'] none = (some res, none) ∧
      res.Pairwise symbLe ∧ res.Pairwise (fun a b => a ≠ b) ∧ ['1'] ∈ res :=
  (@phfwdReverse_contract phfwdNewVal ['1'] (by decide) (by decide)).2 (by decide)

/-- C1: the mirror invariant is violated by the code.  From the empty
table, `phfwdAdd("1","2")`, `phfwdAdd("3","21")`, `phfwdAdd("1","9")` all
succeed (no allocation ever fails), yet afterwards the forward trie's
node for `"3"` holds payload `{"21"}` while the reverse trie's node for
`"21"` no longer exists: `removeReverse` for the overwritten target `"2"`
severed the whole subtree under the reverse node `"2"` although that node
still had the child `"21"`. -/
theorem phfwdAdd_mirror_invariant_violated :
    (phfwdAddM phfwdNewVal ['1'] ['2'] none).1 = true ∧
    (phfwdAddM (phfwdAddM phfwdNewVal ['1'] ['2'] none).2.1 ['3'] ['2','1'] none).1 = true ∧
    (phfwdAddM (phfwdAddM (phfwdAddM phfwdNewVal ['1'] ['2'] none).2.1
        ['3'] ['2','1'] none).2.1 ['1'] ['9'] none).1 = true ∧
    firstMap (phfwdAddM (phfwdAddM (phfwdAddM phfwdNewVal ['1'] ['2'] none).2.1
        ['3'] ['2','1'] none).2.1 ['1'] ['9'] none).2.1.root [3] = some ['2','1'] ∧
    nodeAt (phfwdAddM (phfwdAddM (phfwdAddM phfwdNewVal ['1'] ['2'] none).2.1
        ['3'] ['2','1'] none).2.1 ['1'] ['9'] none).2.1.reverseRoot [2, 1] = none :=
  ⟨rfl, rfl, rfl, rfl, rfl⟩

/-- C2: `phfwdAdd` is not atomic on failure.  Starting from the table
holding the single pair `("1","2")`, the call `phfwdAdd(pf,"1","9")` with
the fifth allocation failing (budget 4: the failure hits the reverse-side
`getEndNode`, after the forward payload was replaced and the old pair's
reverse mirror removed) returns `false` but leaves the forward payload of
`"1"` as `{"9"}` and the reverse entry of `"2"` deleted — the table is
not as it was before the call. -/
theorem phfwdAdd_failure_mutates_table :
    (phfwdAddM phfwdNewVal ['1'] ['2'] none).1 = true ∧
    (phfwdAddM (phfwdAddM phfwdNewVal ['1'] ['2'] none).2.1 ['1'] ['9'] (some 4)).1 = false ∧
    firstMap (phfwdAddM phfwdNewVal ['1'] ['2'] none).2.1.root [1] = some ['2'] ∧
    firstMap (phfwdAddM (phfwdAddM phfwdNewVal ['1'] ['2'] none).2.1
        ['1'] ['9'] (some 4)).2.1.root [1] = some ['9'] ∧
    firstMap (phfwdAddM phfwdNewVal ['1'] ['2'] none).2.1.reverseRoot [2] = some ['1'] ∧
    pathMap (phfwdAddM (phfwdAddM phfwdNewVal ['1'] ['2'] none).2.1
        ['1'] ['9'] (some 4)).2.1.reverseRoot [2] = none :=
  ⟨rfl, rfl, rfl, rfl, rfl, rfl⟩

/-- C6: pruning is not exact in `removeReverse`.  In the reachable
reverse trie where node `"2"` holds payload `{"1"}` and has the child
node `"21"` holding payload `{"3"}`, the call
`removeReverse(start,"2","1")` empties node `"2"`'s payload and then
severs it although it still has a child — destroying the live node
`"21"` together with its payload. -/
theorem removeReverse_deletes_node_with_children :
    firstMap (phfwdAddM (phfwdAddM phfwdNewVal ['1'] ['2'] none).2.1
        ['3'] ['2','1'] none).2.1.reverseRoot [2, 1] = some ['3'] ∧
    (nodeAt (phfwdAddM (phfwdAddM phfwdNewVal ['1'] ['2'] none).2.1
        ['3'] ['2','1'] none).2.1.reverseRoot [2]).map numChildren = some 1 ∧
    nodeAt (removeReverseM (phfwdAddM (phfwdAddM phfwdNewVal ['1'] ['2'] none).2.1
        ['3'] ['2','1'] none).2.1.reverseRoot ['2'] ['1']) [2, 1] = none :=
  ⟨rfl, rfl, rfl⟩

end PhoneFwd
